import Mathlib

/-!
# blockchain_go: block chaining, proof of work, proof of stake, delegated proof of stake

A shallow embedding of the three programs of the repository
(`Proof_of_Work/main.go`, `Proof_of_Stake/main.go`, `Delegated_Proof_of_Stake/main.go`)
and theorems about them.

Conventions of the embedding:

* a Go `int` is an `Int` in the range of `int64`; arithmetic on it wraps (`Go.wrapInt64`);
* a Go `string` is a `String`; its bytes are the UTF-8 encoding of its characters;
* `time.Now().String()` and the random source are inputs of the functions that read them;
* a runtime panic, a fatal error, or a call that does not return is an explicit outcome.
-/

/-! ## The Go library functions the programs call -/

namespace Go

/-- Two's complement wrap-around of a 64-bit signed integer. -/
def wrapInt64 (x : Int) : Int :=
  (x + 9223372036854775808) % 18446744073709551616 - 9223372036854775808

/-- Addition of two Go `int` values. -/
def intAdd (a b : Int) : Int := wrapInt64 (a + b)

/-- Decimal digits of a natural number. -/
def decimal (n : Nat) : String := String.mk (Nat.toDigits 10 n)

/-- Lowercase hexadecimal digits of a natural number. -/
def hexadecimal (n : Nat) : String := String.mk (Nat.toDigits 16 n)

/-- Function `strconv.Itoa`: the decimal text of an `int`, with a leading `-` when negative. -/
def Itoa (i : Int) : String :=
  if i < 0 then "-" ++ decimal i.natAbs else decimal i.toNat

/-- Call `fmt.Sprintf("%x", i)` for an `int`: the sign, then the magnitude in lowercase hex. -/
def SprintfHex (i : Int) : String :=
  if i < 0 then "-" ++ hexadecimal i.natAbs else hexadecimal i.toNat

/-- Conversion `string(i)` of an `int`: the character with code point `i`, and U+FFFD when
`i` is not a valid code point. -/
def runeString (i : Int) : String :=
  if 0 ≤ i ∧ (i.toNat < 55296 ∨ (57343 < i.toNat ∧ i.toNat < 1114112)) then
    String.singleton (Char.ofNat i.toNat)
  else String.singleton (Char.ofNat 65533)

/-- Function `strings.Repeat` for a non-negative count; `none` is the panic on a negative one. -/
def Repeat (s : String) (count : Int) : Option String :=
  if count < 0 then none
  else some (String.mk ((List.replicate count.toNat s.data).flatten))

/-- Function `strings.HasPrefix`. -/
def startsWith (s p : String) : Bool := p.data.isPrefixOf s.data

/-- Method `Intn` of a random source: `none` is the panic on `n = 0`, otherwise a value
below `n`; `r` is the entropy of the draw, so that every value below `n` can come out. -/
def Intn (n : Nat) (r : Nat) : Option Nat :=
  if n = 0 then none else some (r % n)

/-- How a function of `strconv` fails: `ErrSyntax` or `ErrRange`. -/
inductive NumError where
  /-- The text has no valid form (`ErrSyntax`). -/
  | invalid
  /-- The value is out of range (`ErrRange`). -/
  | range
deriving DecidableEq

/-- The loop of `strconv.ParseUint(s, 10, 64)` over the characters after the sign, from the
value `n`: the value and the error, if any. A character that is not a decimal digit is a
syntax error with value 0; a value that leaves `uint64` is a range error with value
`2^64 - 1`, returned at the digit where it happens, before the later characters are read. -/
def parseUintLoop : List Char → Nat → Nat × Option NumError
  | [], n => (n, none)
  | c :: cs, n =>
    if !c.isDigit then (0, some .invalid)
    else if 1844674407370955162 ≤ n then (18446744073709551615, some .range)
    else if 18446744073709551615 < 10 * n + (c.toNat - 48) then
      (18446744073709551615, some .range)
    else parseUintLoop cs (10 * n + (c.toNat - 48))

/-- Function `strconv.ParseInt(s, 10, 0)`: an optional sign, then `ParseUint`; a syntax error
gives value 0, and a magnitude outside `int64` gives the nearest bound and a range error. -/
def ParseInt (s : String) : Int × Option NumError :=
  match s.data with
  | [] => (0, some .invalid)
  | c :: cs =>
    let neg := decide (c = '-')
    let ds := if c = '-' ∨ c = '+' then cs else c :: cs
    if ds.isEmpty then (0, some .invalid)
    else
      match parseUintLoop ds 0 with
      | (_, some .invalid) => (0, some .invalid)
      | (un, _) =>
        if !neg && decide (9223372036854775808 ≤ un) then
          (9223372036854775807, some .range)
        else if neg && decide (9223372036854775808 < un) then
          (-9223372036854775808, some .range)
        else (if neg then -(un : Int) else (un : Int), none)

/-- Function `strconv.Atoi`: the value and whether an error is returned. Its fast path for
short texts and its slow path through `ParseInt` give the same result. -/
def Atoi (s : String) : Int × Bool :=
  ((ParseInt s).1, (ParseInt s).2.isSome)

/-- UTF-8 bytes of one character. -/
def utf8 (c : Char) : List Nat :=
  let n := c.toNat
  if n < 128 then [n]
  else if n < 2048 then [192 + n / 64, 128 + n % 64]
  else if n < 65536 then [224 + n / 4096, 128 + (n / 64) % 64, 128 + n % 64]
  else [240 + n / 262144, 128 + (n / 4096) % 64, 128 + (n / 64) % 64, 128 + n % 64]

/-- Conversion `[]byte(s)`. -/
def bytes (s : String) : List Nat := s.data.flatMap utf8

/-- Function `hex.EncodeToString`: two lowercase hex digits per byte. -/
def EncodeToString (bs : List Nat) : String :=
  String.mk (bs.flatMap fun b => [Nat.digitChar (b / 16), Nat.digitChar (b % 16)])

end Go

/-! ## SHA-256 (`crypto/sha256`), on 32-bit words held in `Nat` -/

namespace Sha256

/-- The 64 round constants of SHA-256 (FIPS 180-4, section 4.2.2). -/
def K : List Nat :=
  [0x428a2f98, 0x71374491, 0xb5c0fbcf, 0xe9b5dba5, 0x3956c25b, 0x59f111f1, 0x923f82a4, 0xab1c5ed5,
   0xd807aa98, 0x12835b01, 0x243185be, 0x550c7dc3, 0x72be5d74, 0x80deb1fe, 0x9bdc06a7, 0xc19bf174,
   0xe49b69c1, 0xefbe4786, 0x0fc19dc6, 0x240ca1cc, 0x2de92c6f, 0x4a7484aa, 0x5cb0a9dc, 0x76f988da,
   0x983e5152, 0xa831c66d, 0xb00327c8, 0xbf597fc7, 0xc6e00bf3, 0xd5a79147, 0x06ca6351, 0x14292967,
   0x27b70a85, 0x2e1b2138, 0x4d2c6dfc, 0x53380d13, 0x650a7354, 0x766a0abb, 0x81c2c92e, 0x92722c85,
   0xa2bfe8a1, 0xa81a664b, 0xc24b8b70, 0xc76c51a3, 0xd192e819, 0xd6990624, 0xf40e3585, 0x106aa070,
   0x19a4c116, 0x1e376c08, 0x2748774c, 0x34b0bcb5, 0x391c0cb3, 0x4ed8aa4a, 0x5b9cca4f, 0x682e6ff3,
   0x748f82ee, 0x78a5636f, 0x84c87814, 0x8cc70208, 0x90befffa, 0xa4506ceb, 0xbef9a3f7, 0xc67178f2]

def add32 (a b : Nat) : Nat := (a + b) % 4294967296

def rotr (x n : Nat) : Nat := ((x >>> n) ||| (x <<< (32 - n))) % 4294967296

def ssig0 (x : Nat) : Nat := (rotr x 7 ^^^ rotr x 18) ^^^ (x >>> 3)
def ssig1 (x : Nat) : Nat := (rotr x 17 ^^^ rotr x 19) ^^^ (x >>> 10)
def bsig0 (x : Nat) : Nat := (rotr x 2 ^^^ rotr x 13) ^^^ rotr x 22
def bsig1 (x : Nat) : Nat := (rotr x 6 ^^^ rotr x 11) ^^^ rotr x 25
def ch (x y z : Nat) : Nat := (x &&& y) ^^^ ((4294967295 - x) &&& z)
def maj (x y z : Nat) : Nat := ((x &&& y) ^^^ (x &&& z)) ^^^ (y &&& z)

/-- Message padding: the byte 0x80, zero bytes up to 56 modulo 64, the bit length on 8 bytes. -/
def pad (msg : List Nat) : List Nat :=
  let l := msg.length
  let bits := 8 * l
  msg ++ [128] ++ List.replicate ((119 - l % 64) % 64) 0 ++
    (List.range 8).map (fun i => (bits >>> (8 * (7 - i))) % 256)

/-- Big-endian 32-bit words of a byte list (four bytes per word). -/
def toWords : List Nat → List Nat
  | a :: b :: c :: d :: rest => (((a * 256 + b) * 256 + c) * 256 + d) :: toWords rest
  | _ => []

/-- The message schedule, kept newest-first: `n` more words appended to the 16 block words. -/
def extend : Nat → List Nat → List Nat
  | 0, w => w
  | n + 1, w =>
    let x := add32 (add32 (ssig1 (w.getD 1 0)) (w.getD 6 0))
      (add32 (ssig0 (w.getD 14 0)) (w.getD 15 0))
    extend n (x :: w)

structure Regs where
  a : Nat
  b : Nat
  c : Nat
  d : Nat
  e : Nat
  f : Nat
  g : Nat
  h : Nat

def round (s : Regs) (kw : Nat × Nat) : Regs :=
  let t1 := add32 (add32 (add32 s.h (bsig1 s.e)) (add32 (ch s.e s.f s.g) kw.1)) kw.2
  let t2 := add32 (bsig0 s.a) (maj s.a s.b s.c)
  { a := add32 t1 t2, b := s.a, c := s.b, d := s.c, e := add32 s.d t1, f := s.e, g := s.f, h := s.g }

def compress (hs : Regs) (block : List Nat) : Regs :=
  let w := (extend 48 block.reverse).reverse
  let r := (K.zip w).foldl round hs
  { a := add32 hs.a r.a, b := add32 hs.b r.b, c := add32 hs.c r.c, d := add32 hs.d r.d,
    e := add32 hs.e r.e, f := add32 hs.f r.f, g := add32 hs.g r.g, h := add32 hs.h r.h }

def blocks : Nat → List Nat → Regs → Regs
  | 0, _, hs => hs
  | n + 1, ws, hs => blocks n (ws.drop 16) (compress hs (ws.take 16))

def wordBytes (w : Nat) : List Nat :=
  [w >>> 24, (w >>> 16) % 256, (w >>> 8) % 256, w % 256]

/-- SHA-256 digest (32 bytes) of a byte list. -/
def sum (msg : List Nat) : List Nat :=
  let ws := toWords (pad msg)
  let r := blocks (ws.length / 16) ws ⟨0x6a09e667, 0xbb67ae85, 0x3c6ef372, 0xa54ff53a,
    0x510e527f, 0x9b05688c, 0x1f83d9ab, 0x5be0cd19⟩
  [r.a, r.b, r.c, r.d, r.e, r.f, r.g, r.h].flatMap wordBytes

end Sha256

/-- The three programs hash a string the same way: `sha256.New`, `Write([]byte(s))`, `Sum(nil)`,
`hex.EncodeToString`. -/
def Go.sha256hex (s : String) : String := Go.EncodeToString (Sha256.sum (Go.bytes s))

/-! ## Proof of work (`Proof_of_Work/main.go`) -/

namespace PoW

/-- Constant `difficulty`. -/
def difficulty : Int := 1

/-- The block of the proof-of-work chain. -/
structure Block where
  Index : Int
  Timestamp : String
  BPM : Int
  Hash : String
  PreHash : String
  Difficulty : Int
  Nonce : String
deriving DecidableEq

/-- The zero value `Block{}`. -/
def Block.zero : Block :=
  { Index := 0, Timestamp := "", BPM := 0, Hash := "", PreHash := "", Difficulty := 0, Nonce := "" }

/-- The string that `calculateHash` hashes. -/
def record (block : Block) : String :=
  Go.Itoa block.Index ++ block.Timestamp ++ Go.Itoa block.BPM ++ block.PreHash ++ block.Nonce

/-- Function `calculateHash`. -/
def calculateHash (block : Block) : String := Go.sha256hex (record block)

/-- Function `isHashValid`; `none` is the panic of `strings.Repeat` on a negative difficulty. -/
def isHashValid (hash : String) (difficulty : Int) : Option Bool :=
  match Go.Repeat "0" difficulty with
  | none => none
  | some pre => some (Go.startsWith hash pre)

/-- Function `isBlockValid`. -/
def isBlockValid (newBlock oldBlock : Block) : Bool :=
  if Go.intAdd oldBlock.Index 1 ≠ newBlock.Index then false
  else if oldBlock.Hash ≠ newBlock.PreHash then false
  else if calculateHash newBlock ≠ newBlock.Hash then false
  else true

/-- The candidate of `generateBlock` before the nonce search (lines 46 to 54). -/
def candidate (oldBlock : Block) (BPM : Int) (t : String) : Block :=
  { Block.zero with
    Index := Go.intAdd oldBlock.Index 1, Timestamp := t, BPM := BPM,
    PreHash := oldBlock.Hash, Difficulty := difficulty }

/-- The nonce loop of `generateBlock` (lines 57 to 69) from counter value `i`, run for at most
`fuel` iterations. `none`: no block within `fuel` iterations, or the panic of `isHashValid`. -/
def search (newBlock : Block) : Nat → Int → Option Block
  | 0, _ => none
  | fuel + 1, i =>
    let newBlock := { newBlock with Nonce := Go.SprintfHex i }
    match isHashValid (calculateHash newBlock) newBlock.Difficulty with
    | none => none
    | some false => search newBlock fuel (Go.intAdd i 1)
    | some true => some { newBlock with Hash := calculateHash newBlock }

/-- Function `generateBlock`; `t` is `time.Now().String()`. -/
def generateBlock (fuel : Nat) (oldBlock : Block) (BPM : Int) (t : String) : Option Block :=
  search (candidate oldBlock BPM t) fuel 0

/-- The genesis block built in `main`; its hash is the hash of the zero block. -/
def genesisBlock (t : String) : Block :=
  { Index := 0, Timestamp := t, BPM := 0, Hash := calculateHash Block.zero, PreHash := "",
    Difficulty := difficulty, Nonce := "" }

/-- Where one run of `handleWriteBlock` stands, for a request whose body was decoded
(lines 145 to 150). A request whose body the decoder rejects is answered with status 400
without reading or writing the shared variables, and is left out. -/
inductive Handler where
  /-- The body is decoded with payload `BPM`; `mutex.Lock()` (line 152) is next. -/
  | decoded (BPM : Int)
  /-- The mutex is held; `generateBlock` on the chain tail (line 153) is next. -/
  | locked (BPM : Int)
  /-- Function `generateBlock` has returned `newBlock`; `mutex.Unlock()` (line 154) is next. -/
  | mined (newBlock : Block)
  /-- The mutex is released; `isBlockValid` on the chain tail (line 156) is next. -/
  | unlocked (newBlock : Block)
  /-- Function `isBlockValid` has returned true; the append (line 157) is next. -/
  | valid (newBlock : Block)
  /-- The reply with `newBlock` is written (line 161); the run is over. -/
  | replied (newBlock : Block)
deriving DecidableEq

/-- The shared variables of the server, and the runs of `handleWriteBlock` in progress (the
HTTP server runs each request in a goroutine of its own). -/
structure Server where
  Blockchain : List Block
  locked : Bool
  handlers : List Handler
deriving DecidableEq

/-- The server once the genesis block is appended (lines 181 to 190). -/
def Server.start (t : String) : Server :=
  { Blockchain := [genesisBlock t], locked := false, handlers := [] }

/-- A request with payload `BPM` arrives: a new run of `handleWriteBlock` begins. -/
def Server.accept (s : Server) (BPM : Int) : Server :=
  { s with handlers := s.handlers ++ [.decoded BPM] }

/-- Function `handleWriteBlock`, lines 152 to 157: the next statement of the run number `i`.
`t` is `time.Now().String()` for the call of `generateBlock`. `none`: the run cannot move (it
waits for the mutex, it is over, the chain is empty, or no nonce is found within `fuel`). -/
def handleWriteBlock (fuel : Nat) (t : String) (s : Server) (i : Nat) : Option Server :=
  match s.handlers[i]? with
  | none => none
  | some (.decoded BPM) =>
    if s.locked then none
    else some { s with locked := true, handlers := s.handlers.set i (.locked BPM) }
  | some (.locked BPM) =>
    match s.Blockchain.getLast? with
    | none => none
    | some last =>
      match generateBlock fuel last BPM t with
      | none => none
      | some newBlock => some { s with handlers := s.handlers.set i (.mined newBlock) }
  | some (.mined newBlock) =>
    some { s with locked := false, handlers := s.handlers.set i (.unlocked newBlock) }
  | some (.unlocked newBlock) =>
    match s.Blockchain.getLast? with
    | none => none
    | some last =>
      if isBlockValid newBlock last then
        some { s with handlers := s.handlers.set i (.valid newBlock) }
      else some { s with handlers := s.handlers.set i (.replied newBlock) }
  | some (.valid newBlock) =>
    some { s with
           Blockchain := s.Blockchain ++ [newBlock],
           handlers := s.handlers.set i (.replied newBlock) }
  | some (.replied _) => none

/-- What happens next on the server. -/
inductive Event where
  /-- A request with payload `BPM` arrives. -/
  | request (BPM : Int)
  /-- The run number `i` executes its next statement, at time `t`. -/
  | step (i : Nat) (t : String)
deriving DecidableEq

/-- The server after a schedule of events; `none` when a scheduled run cannot move. -/
def Server.run (fuel : Nat) (s : Server) : List Event → Option Server
  | [] => some s
  | .request BPM :: events => Server.run fuel (s.accept BPM) events
  | .step i t :: events =>
    match handleWriteBlock fuel t s i with
    | some s1 => Server.run fuel s1 events
    | none => none

/-- Server states reachable from the genesis-only chain by requests and by statements of the
runs of `handleWriteBlock`, in any interleaving. -/
inductive Reachable : Server → Prop
  | start (t : String) : Reachable (Server.start t)
  | request {s : Server} (BPM : Int) : Reachable s → Reachable (s.accept BPM)
  | step {s s1 : Server} (fuel : Nat) (t : String) (i : Nat) :
      Reachable s → handleWriteBlock fuel t s i = some s1 → Reachable s1

end PoW

/-! ## Proof of stake (`Proof_of_Stake/main.go`) -/

namespace PoS

/-- The block of the proof-of-stake chain. -/
structure Block where
  Index : Int
  Timestamp : String
  BPM : Int
  Hash : String
  PreHash : String
  Validator : String
deriving DecidableEq

/-- The zero value `Block{}`. -/
def Block.zero : Block :=
  { Index := 0, Timestamp := "", BPM := 0, Hash := "", PreHash := "", Validator := "" }

/-- Function `caculateHash`. -/
def caculateHash (s : String) : String := Go.sha256hex s

/-- The string that `caculateBlockHash` hashes; `string(block.Index)` and `string(block.BPM)`
are conversions of an `int` to the string of one code point. -/
def record (block : Block) : String :=
  Go.runeString block.Index ++ block.Timestamp ++ Go.runeString block.BPM ++ block.PreHash

/-- Function `caculateBlockHash`. -/
def caculateBlockHash (block : Block) : String := caculateHash (record block)

/-- Function `generateBlock`; `t` is `time.Now().String()`. The returned error is always nil. -/
def generateBlock (oldBlock : Block) (BPM : Int) (address : String) (t : String) :
    Except String Block :=
  let newBlock : Block :=
    { Block.zero with
      Index := Go.intAdd oldBlock.Index 1, Timestamp := t, BPM := BPM, PreHash := oldBlock.Hash }
  let newBlock : Block := { newBlock with Hash := caculateBlockHash newBlock }
  let newBlock : Block := { newBlock with Validator := address }
  .ok newBlock

/-- Function `isBlockValid`. -/
def isBlockValid (newBlock oldBlock : Block) : Bool :=
  if Go.intAdd oldBlock.Index 1 ≠ newBlock.Index then false
  else if oldBlock.Hash ≠ newBlock.PreHash then false
  else if caculateBlockHash newBlock ≠ newBlock.Hash then false
  else true

/-- The genesis block built in `main`; its hash is the hash of the zero block. -/
def genesisBlock (t : String) : Block :=
  { Index := 0, Timestamp := t, BPM := 0, Hash := caculateBlockHash Block.zero, PreHash := "",
    Validator := "" }

/-- The shared variables of the program, and the connection of the session that is run.
`validators` is the map from address to token balance, as a list of entries read by
`List.lookup`; `locked` is the state of `mutex`; `candidateBlocks` and `announcements` list
what has been sent on the two channels, oldest first. -/
structure World where
  Blockchain : List Block
  tempBlocks : List Block
  validators : List (String × Int)
  locked : Bool
  candidateBlocks : List Block
  announcements : List String
  connClosed : Bool
deriving DecidableEq

/-- How a run stops without returning. -/
inductive Fault where
  /-- Call `mutex.Lock()` on a held mutex: the goroutine waits for another one. -/
  | lockBlocked
  /-- Call `mutex.Unlock()` on a free mutex: `fatal error: sync: unlock of unlocked mutex`. -/
  | unlockOfUnlocked
  /-- Call `Intn(0)`: `panic: invalid argument to Intn`. -/
  | intnPanic
  /-- An index outside a slice: `panic: index out of range`. -/
  | indexOutOfRange
deriving DecidableEq

/-- The outcome of a run: it returns a value, or it stops with a fault; in both cases the
shared variables are as the run left them. -/
inductive Res (α : Type) where
  | ok (a : α) (w : World)
  | fault (f : Fault) (w : World)
deriving DecidableEq

/-- The shared variables at the end of a run. -/
def Res.world {α : Type} : Res α → World
  | .ok _ w => w
  | .fault _ w => w

/-- Whether the run returned. -/
def Res.returned {α : Type} : Res α → Bool
  | .ok _ _ => true
  | .fault _ _ => false

/-- A sequential piece of the program. -/
def Exec (α : Type) : Type := World → Res α

/-- Sequencing: a fault ends the run. -/
def Exec.bind {α β : Type} (m : Exec α) (f : α → Exec β) : Exec β := fun w =>
  match m w with
  | .ok a w1 => f a w1
  | .fault e w1 => .fault e w1

instance : Monad Exec where
  pure a := fun w => .ok a w
  bind := Exec.bind

/-- Call `mutex.Lock()`. -/
def Lock : Exec Unit := fun w =>
  if w.locked then .fault .lockBlocked w else .ok () { w with locked := true }

/-- Call `mutex.Unlock()`. -/
def Unlock : Exec Unit := fun w =>
  if w.locked then .ok () { w with locked := false } else .fault .unlockOfUnlocked w

/-- Read the shared variables. -/
def read : Exec World := fun w => .ok w w

/-- Write the shared variables. -/
def modify (f : World → World) : Exec Unit := fun w => .ok () (f w)

/-- Statement `delete(validators, address)`. -/
def deleteValidator (address : String) : Exec Unit :=
  modify fun w => { w with validators := w.validators.filter fun e => e.1 ≠ address }

/-- Expression `Blockchain[len(Blockchain)-1]`. -/
def lastBlock : Exec Block := fun w =>
  match w.Blockchain.getLast? with
  | some b => .ok b w
  | none => .fault .indexOutOfRange w

/-- The body of the loop `for scanBPM.Scan()` of `handleConn` (lines 133 to 154) for the
session of `address`, on the line `text`; `t` is `time.Now().String()`. -/
def submission (address text t : String) : Exec Unit := do
  let (bpm, err) := Go.Atoi text
  if err then
    deleteValidator address
    modify fun w => { w with connClosed := true }
  Lock
  let oldLastIndex ← lastBlock
  Unlock
  match generateBlock oldLastIndex bpm address t with
  | .error _ => pure ()
  | .ok newBlock =>
    if isBlockValid newBlock oldLastIndex then
      modify fun w => { w with candidateBlocks := w.candidateBlocks ++ [newBlock] }

/-- The goroutine of `main` that receives from `candidateBlocks` (lines 257 to 261), for one
candidate. -/
def collect : Exec Unit := do
  let w ← read
  match w.candidateBlocks with
  | [] => pure ()
  | candidate :: rest =>
    modify fun w => { w with candidateBlocks := rest }
    Lock
    modify fun w => { w with tempBlocks := w.tempBlocks ++ [candidate] }
    Unlock

/-- Loop `OUTER` of `pickWinner` (lines 184 to 205): the lottery pool after the blocks of
`temp`, from the pool `lotteryPool`. The inner loop appends the validator `k` times. -/
def lotteryLoop : List Block → List String → Exec (List String)
  | [], lotteryPool => pure lotteryPool
  | block :: temp, lotteryPool =>
    if lotteryPool.contains block.Validator then lotteryLoop temp lotteryPool
    else do
      Lock
      let setValidators := (← read).validators
      Unlock
      match setValidators.lookup block.Validator with
      | some k => lotteryLoop temp (lotteryPool ++ List.replicate k.toNat block.Validator)
      | none => lotteryLoop temp lotteryPool

/-- The draw of `pickWinner` (lines 208 to 210): `lotteryPool[r.Intn(len(lotteryPool))]`. -/
def draw (lotteryPool : List String) (r : Nat) : Exec String := fun w =>
  match Go.Intn lotteryPool.length r with
  | none => .fault .intnPanic w
  | some i =>
    match lotteryPool[i]? with
    | some lotteryWinner => .ok lotteryWinner w
    | none => .fault .indexOutOfRange w

/-- The lottery of `pickWinner` (lines 180 to 210): the pool, then the draw. -/
def lottery (temp : List Block) (r : Nat) : Exec String := do
  let lotteryPool ← lotteryLoop temp []
  draw lotteryPool r

/-- The last loop of `pickWinner` (lines 213 to 221): at the first block of the winner it
unlocks the mutex, sends one announcement per entry of `validators`, and leaves the loop. -/
def commitLoop (lotteryWinner : String) : List Block → Exec Unit
  | [] => pure ()
  | block :: temp =>
    if block.Validator = lotteryWinner then do
      Unlock
      modify fun w =>
        { w with
          announcements := w.announcements ++
            List.replicate w.validators.length ("\nwinning validators: " ++ lotteryWinner ++ "\n") }
    else commitLoop lotteryWinner temp

/-- Function `pickWinner`, one round, after the sleep; `r` is the entropy of the draw. -/
def pickWinner (r : Nat) : Exec Unit := do
  Lock
  let temp := (← read).tempBlocks
  Unlock
  if temp.length > 0 then
    let lotteryWinner ← lottery temp r
    commitLoop lotteryWinner temp
  Lock
  modify fun w => { w with tempBlocks := [] }
  Unlock

end PoS

/-! ## Delegated proof of stake (`Delegated_Proof_of_Stake/main.go`) -/

namespace DPoS

/-- The block of the delegated-proof-of-stake chain. -/
structure Block where
  Index : Int
  Timestamp : String
  BPM : Int
  Hash : String
  PrevHash : String
  Delegate : String
deriving DecidableEq

/-- The zero value `Block{}`. -/
def Block.zero : Block :=
  { Index := 0, Timestamp := "", BPM := 0, Hash := "", PrevHash := "", Delegate := "" }

/-- Function `generateHash`. -/
def generateHash (s : String) : String := Go.sha256hex s

/-- The string that `caculateBlockHash` hashes. -/
def record (block : Block) : String :=
  Go.runeString block.Index ++ block.Timestamp ++ Go.runeString block.BPM ++ block.PrevHash

/-- Function `caculateBlockHash`. -/
def caculateBlockHash (block : Block) : String := generateHash (record block)

/-- Function `generateBlock`; `t` is `time.Now().String()`. The returned error is always nil. -/
def generateBlock (oldBlock : Block) (BPM : Int) (address : String) (t : String) :
    Except String Block :=
  let newBlock : Block :=
    { Block.zero with
      Index := Go.intAdd oldBlock.Index 1, Timestamp := t, BPM := BPM, PrevHash := oldBlock.Hash }
  let newBlock : Block := { newBlock with Hash := caculateBlockHash newBlock }
  let newBlock : Block := { newBlock with Delegate := address }
  .ok newBlock

/-- Function `isBlockValid`. -/
def isBlockValid (newBlock oldBlock : Block) : Bool :=
  if Go.intAdd oldBlock.Index 1 ≠ newBlock.Index then false
  else if oldBlock.Hash ≠ newBlock.PrevHash then false
  else if caculateBlockHash newBlock ≠ newBlock.Hash then false
  else true

/-- Function `randDelegate`; `none` is the panic of `delegates[1:]` on an empty slice. -/
def randDelegate (delegates : List String) : Option (List String) :=
  match delegates with
  | [] => none
  | first :: randList => some (randList ++ [first])

/-- The variables of the program. -/
structure State where
  Blockchain : List Block
  delegates : List String
  indexDelegate : Int
deriving DecidableEq

/-- The genesis block built in `main`; its hash is the hash of the zero block. -/
def genesisBlock (t : String) : Block :=
  { Index := 0, Timestamp := t, BPM := 0, Hash := caculateBlockHash Block.zero, PrevHash := "",
    Delegate := "" }

/-- The state of `main` when it reaches the loop (lines 88 to 96). -/
def start (t : String) : State :=
  { Blockchain := [genesisBlock t],
    delegates := ["001", "002", "003", "004", "005"],
    indexDelegate := Go.intAdd 0 1 }

/-- Variable `countDelegate` (line 98): the length of the initial schedule. -/
def countDelegate : Int := 5

/-- An element of a slice at an `int` index; `none` is the panic outside the range. -/
def index {α : Type} (l : List α) (i : Int) : Option α :=
  if i < 0 then none else l[i.toNat]?

/-- What one pass over the loop of `main` does. -/
inductive Step where
  /-- The loop condition is false. -/
  | exit
  /-- A runtime panic. -/
  | panic
  /-- The body ran; the variables after it. -/
  | next (s : State)
deriving DecidableEq

/-- One pass over the loop of `main` (lines 100 to 128); `r` is the entropy of
`rand.Intn(100)` and `t` is `time.Now().String()`. -/
def iteration (countDelegate : Int) (s : State) (r : Nat) (t : String) : Step :=
  if ¬ s.indexDelegate < countDelegate then .exit
  else
    match Go.Intn 100 r, s.Blockchain.getLast?, index s.delegates s.indexDelegate with
    | some bpm, some oldLastIndex, some delegate =>
      match generateBlock oldLastIndex bpm delegate t with
      | .error _ => .next s
      | .ok newBlock =>
        let Blockchain :=
          if isBlockValid newBlock oldLastIndex then s.Blockchain ++ [newBlock] else s.Blockchain
        if countDelegate = 0 then .panic
        else
          let indexDelegate := Int.tmod (Go.intAdd s.indexDelegate 1) countDelegate
          if indexDelegate = 0 then
            match randDelegate s.delegates with
            | none => .panic
            | some delegates =>
              .next { Blockchain := Blockchain, delegates := delegates, indexDelegate := 0 }
          else
            .next { Blockchain := Blockchain, delegates := s.delegates,
                    indexDelegate := indexDelegate }
    | _, _, _ => .panic

/-- States of `main` reachable from the start of the loop. -/
inductive Reachable : State → Prop
  | start (t : String) : Reachable (start t)
  | next {s s1 : State} (r : Nat) (t : String) :
      Reachable s → iteration countDelegate s r t = .next s1 → Reachable s1

/-- The loop of `main` for as many passes as `inputs` has elements; each element is the
entropy of `rand.Intn(100)` and the time of one pass. `none`: the loop stopped (exit or panic)
before the end of `inputs`. -/
def run (s : State) : List (Nat × String) → Option State
  | [] => some s
  | (r, t) :: inputs =>
    match iteration countDelegate s r t with
    | .next s1 => run s1 inputs
    | _ => none

end DPoS

/-! ## Sample data for the evaluations -/

namespace PoS

/-- The shared variables with the genesis-only chain, a free mutex, nothing sent on the
channels, and the given candidate pool and registry. -/
def sampleWorld (tempBlocks : List Block) (validators : List (String × Int)) : World :=
  { Blockchain := [genesisBlock "2018-07-01 10:00:00 +0800 CST"], tempBlocks := tempBlocks,
    validators := validators, locked := false, candidateBlocks := [], announcements := [],
    connClosed := false }

/-- The block that `generateBlock` builds on the genesis block for `address` and `BPM`. -/
def sampleCandidate (address : String) (BPM : Int) : Block :=
  match generateBlock (genesisBlock "2018-07-01 10:00:00 +0800 CST") BPM address
      "2018-07-01 10:00:30 +0800 CST" with
  | .ok newBlock => newBlock
  | .error _ => Block.zero

end PoS

namespace PoW

/-- The block mined on the genesis block of 10:00:00 for payload 2 at 10:00:30. -/
def sampleFirst : Block :=
  { Index := 1, Timestamp := "2018-07-01 10:00:30 +0800 CST", BPM := 2,
    Hash := "0e1f99c3bfd9669f2d8787816a11a64c6853b93026a8c8411eff7859a48f3210",
    PreHash := "f1534392279bddbf9d43dde8701cb5be14b82f76ec6607bf8d6ad557f60f304e",
    Difficulty := 1, Nonce := "0" }

/-- The block mined on the genesis block of 10:00:00 for payload 8 at 10:00:31. -/
def sampleSecondOnGenesis : Block :=
  { Index := 1, Timestamp := "2018-07-01 10:00:31 +0800 CST", BPM := 8,
    Hash := "02b0a851fae0fc175788239bdca7189584ab80b6b2cbd02a2d10ca8ecc2c1e66",
    PreHash := "f1534392279bddbf9d43dde8701cb5be14b82f76ec6607bf8d6ad557f60f304e",
    Difficulty := 1, Nonce := "0" }

/-- The block mined on `sampleFirst` for payload 8 at 10:00:31. -/
def sampleSecondOnFirst : Block :=
  { Index := 2, Timestamp := "2018-07-01 10:00:31 +0800 CST", BPM := 8,
    Hash := "0861d3f9be9a4854b6db6f2ef5e3cbaf463245400ac6db1e0437be7716eb6439",
    PreHash := "0e1f99c3bfd9669f2d8787816a11a64c6853b93026a8c8411eff7859a48f3210",
    Difficulty := 1, Nonce := "8" }

end PoW

/-! ## Arithmetic of `int` -/

theorem Go.wrapInt64_of_range (x : Int) (h1 : -9223372036854775808 ≤ x)
    (h2 : x < 9223372036854775808) : Go.wrapInt64 x = x := by
  unfold Go.wrapInt64; omega

theorem Go.intAdd_one_of_lt (x : Int) (h1 : -9223372036854775808 ≤ x)
    (h2 : x < 9223372036854775807) : Go.intAdd x 1 = x + 1 := by
  unfold Go.intAdd Go.wrapInt64; omega

theorem Go.intAdd_wrapInt64_one (k : Int) :
    Go.intAdd (Go.wrapInt64 k) 1 = Go.wrapInt64 (k + 1) := by
  unfold Go.intAdd Go.wrapInt64; omega

/-! ## Validation -/

theorem PoW.pow_isBlockValid_eq_true_iff (n o : PoW.Block) :
    PoW.isBlockValid n o = true ↔
      n.Index = Go.intAdd o.Index 1 ∧ n.PreHash = o.Hash ∧ PoW.calculateHash n = n.Hash := by
  have e1 : Go.intAdd o.Index 1 = n.Index ↔ n.Index = Go.intAdd o.Index 1 := eq_comm
  have e2 : o.Hash = n.PreHash ↔ n.PreHash = o.Hash := eq_comm
  simp only [PoW.isBlockValid, ne_eq, e1, e2]
  by_cases h1 : n.Index = Go.intAdd o.Index 1 <;> by_cases h2 : n.PreHash = o.Hash <;>
    by_cases h3 : PoW.calculateHash n = n.Hash <;> simp [h1, h2, h3]

theorem PoS.pos_isBlockValid_eq_true_iff (n o : PoS.Block) :
    PoS.isBlockValid n o = true ↔
      n.Index = Go.intAdd o.Index 1 ∧ n.PreHash = o.Hash ∧ PoS.caculateBlockHash n = n.Hash := by
  have e1 : Go.intAdd o.Index 1 = n.Index ↔ n.Index = Go.intAdd o.Index 1 := eq_comm
  have e2 : o.Hash = n.PreHash ↔ n.PreHash = o.Hash := eq_comm
  simp only [PoS.isBlockValid, ne_eq, e1, e2]
  by_cases h1 : n.Index = Go.intAdd o.Index 1 <;> by_cases h2 : n.PreHash = o.Hash <;>
    by_cases h3 : PoS.caculateBlockHash n = n.Hash <;> simp [h1, h2, h3]

theorem DPoS.dpos_isBlockValid_eq_true_iff (n o : DPoS.Block) :
    DPoS.isBlockValid n o = true ↔
      n.Index = Go.intAdd o.Index 1 ∧ n.PrevHash = o.Hash ∧ DPoS.caculateBlockHash n = n.Hash := by
  have e1 : Go.intAdd o.Index 1 = n.Index ↔ n.Index = Go.intAdd o.Index 1 := eq_comm
  have e2 : o.Hash = n.PrevHash ↔ n.PrevHash = o.Hash := eq_comm
  simp only [DPoS.isBlockValid, ne_eq, e1, e2]
  by_cases h1 : n.Index = Go.intAdd o.Index 1 <;> by_cases h2 : n.PrevHash = o.Hash <;>
    by_cases h3 : DPoS.caculateBlockHash n = n.Hash <;> simp [h1, h2, h3]

/-- C1: in each of the three programs, `isBlockValid newBlock oldBlock` is true exactly when
`newBlock.Index` is `oldBlock.Index + 1` (the addition of `int`), the previous-hash field of
`newBlock` is `oldBlock.Hash`, and the hash recomputed from `newBlock` is `newBlock.Hash`; it is
false exactly when one of the three fails. -/
theorem isBlockValid_iff_three_checks :
    (∀ newBlock oldBlock : PoW.Block,
      (PoW.isBlockValid newBlock oldBlock = true ↔
        newBlock.Index = Go.intAdd oldBlock.Index 1 ∧ newBlock.PreHash = oldBlock.Hash ∧
          PoW.calculateHash newBlock = newBlock.Hash) ∧
      (PoW.isBlockValid newBlock oldBlock = false ↔
        newBlock.Index ≠ Go.intAdd oldBlock.Index 1 ∨ newBlock.PreHash ≠ oldBlock.Hash ∨
          PoW.calculateHash newBlock ≠ newBlock.Hash)) ∧
    (∀ newBlock oldBlock : PoS.Block,
      (PoS.isBlockValid newBlock oldBlock = true ↔
        newBlock.Index = Go.intAdd oldBlock.Index 1 ∧ newBlock.PreHash = oldBlock.Hash ∧
          PoS.caculateBlockHash newBlock = newBlock.Hash) ∧
      (PoS.isBlockValid newBlock oldBlock = false ↔
        newBlock.Index ≠ Go.intAdd oldBlock.Index 1 ∨ newBlock.PreHash ≠ oldBlock.Hash ∨
          PoS.caculateBlockHash newBlock ≠ newBlock.Hash)) ∧
    (∀ newBlock oldBlock : DPoS.Block,
      (DPoS.isBlockValid newBlock oldBlock = true ↔
        newBlock.Index = Go.intAdd oldBlock.Index 1 ∧ newBlock.PrevHash = oldBlock.Hash ∧
          DPoS.caculateBlockHash newBlock = newBlock.Hash) ∧
      (DPoS.isBlockValid newBlock oldBlock = false ↔
        newBlock.Index ≠ Go.intAdd oldBlock.Index 1 ∨ newBlock.PrevHash ≠ oldBlock.Hash ∨
          DPoS.caculateBlockHash newBlock ≠ newBlock.Hash)) := by
  refine ⟨fun n o => ⟨PoW.pow_isBlockValid_eq_true_iff n o, ?_⟩,
    fun n o => ⟨PoS.pos_isBlockValid_eq_true_iff n o, ?_⟩,
    fun n o => ⟨DPoS.dpos_isBlockValid_eq_true_iff n o, ?_⟩⟩
  · rw [← Bool.not_eq_true, PoW.pow_isBlockValid_eq_true_iff]; tauto
  · rw [← Bool.not_eq_true, PoS.pos_isBlockValid_eq_true_iff]; tauto
  · rw [← Bool.not_eq_true, DPoS.dpos_isBlockValid_eq_true_iff]; tauto

/-! ## Proof of work: the nonce search -/

theorem PoW.calculateHash_hash (b : PoW.Block) (h : String) :
    PoW.calculateHash { b with Hash := h } = PoW.calculateHash b := rfl

theorem PoW.isHashValid_true_iff (hash : String) (d : Int) :
    PoW.isHashValid hash d = some true ↔
      0 ≤ d ∧ List.replicate d.toNat '0' <+: hash.data := by
  unfold PoW.isHashValid Go.Repeat Go.startsWith
  by_cases hd : d < 0
  · simp [hd]
  · have h0 : ("0" : String).data = ['0'] := rfl
    have hf : ∀ n : Nat, (List.replicate n ['0']).flatten = List.replicate n '0' := by
      intro n; induction n with
      | zero => rfl
      | succ n ih => simp [List.replicate_succ, ih]
    simp [hd, h0, hf, List.isPrefixOf_iff_prefix]
    omega

/-- The nonce loop, from the counter value reached after `k0` increments: when it returns a
block, the block is the candidate with the nonce of the first counter value, from `k0` on,
whose hash passes `isHashValid`, and with that hash. -/
theorem PoW.search_some (fuel : Nat) : ∀ (nb b : PoW.Block) (k0 : Nat),
    PoW.search nb fuel (Go.wrapInt64 k0) = some b →
    ∃ k : Nat, k0 ≤ k ∧ k < k0 + fuel ∧
      b = { nb with
            Nonce := Go.SprintfHex (Go.wrapInt64 k),
            Hash := PoW.calculateHash { nb with Nonce := Go.SprintfHex (Go.wrapInt64 k) } } ∧
      PoW.isHashValid (PoW.calculateHash { nb with Nonce := Go.SprintfHex (Go.wrapInt64 k) })
        nb.Difficulty = some true ∧
      ∀ j : Nat, k0 ≤ j → j < k →
        PoW.isHashValid (PoW.calculateHash { nb with Nonce := Go.SprintfHex (Go.wrapInt64 j) })
          nb.Difficulty = some false := by
  induction fuel with
  | zero => intro nb b k0 h; simp [PoW.search] at h
  | succ fuel ih =>
    intro nb b k0 h
    simp only [PoW.search] at h
    split at h
    · exact absurd h (by simp)
    · rename_i hv
      rw [Go.intAdd_wrapInt64_one] at h
      have h2 : PoW.search { nb with Nonce := Go.SprintfHex (Go.wrapInt64 k0) } fuel
          (Go.wrapInt64 ((k0 + 1 : Nat) : Int)) = some b := by
        rw [← h]; push_cast; rfl
      obtain ⟨k, hk1, hk2, hb, hvk, hlt⟩ := ih _ b (k0 + 1) h2
      refine ⟨k, by omega, by omega, hb, hvk, ?_⟩
      intro j hj1 hj2
      by_cases hj : j = k0
      · subst hj; exact hv
      · exact hlt j (by omega) hj2
    · rename_i hv
      refine ⟨k0, le_refl _, by omega, ?_, hv, ?_⟩
      · simpa using h.symm
      · intro j hj1 hj2; omega

/-- C3: when the proof-of-work `generateBlock` returns a block, its `Index` is the index of the
predecessor plus one (the addition of `int`), its `PreHash` is the hash of the predecessor, its
`Hash` is `calculateHash` of the block itself, its `Difficulty` is the constant `difficulty`,
`isHashValid Hash Difficulty` is true, and `Hash` starts with `Difficulty` characters `0`. -/
theorem PoW.generateBlock_meets_difficulty (fuel : Nat) (oldBlock : PoW.Block) (BPM : Int)
    (t : String) (newBlock : PoW.Block)
    (h : PoW.generateBlock fuel oldBlock BPM t = some newBlock) :
    newBlock.Index = Go.intAdd oldBlock.Index 1 ∧
    newBlock.PreHash = oldBlock.Hash ∧
    newBlock.Hash = PoW.calculateHash newBlock ∧
    newBlock.Difficulty = PoW.difficulty ∧
    PoW.isHashValid newBlock.Hash newBlock.Difficulty = some true ∧
    List.replicate newBlock.Difficulty.toNat '0' <+: newBlock.Hash.data := by
  unfold PoW.generateBlock at h
  have h0 : PoW.search (PoW.candidate oldBlock BPM t) fuel (Go.wrapInt64 ((0 : Nat) : Int))
      = some newBlock := h
  obtain ⟨k, -, -, hb, hv, -⟩ := PoW.search_some fuel _ _ 0 h0
  subst hb
  refine ⟨rfl, rfl, rfl, rfl, hv, ?_⟩
  exact ((PoW.isHashValid_true_iff _ _).1 hv).2

set_option maxRecDepth 100000 in
/-- C3, at a concrete input: mining on the genesis block with payload 2. -/
theorem PoW.generateBlock_meets_difficulty_witness :
    PoW.generateBlock 1 (PoW.genesisBlock "2018-07-01 10:00:00 +0800 CST") 2
        "2018-07-01 10:00:30 +0800 CST" =
      some { Index := 1, Timestamp := "2018-07-01 10:00:30 +0800 CST", BPM := 2,
             Hash := "0e1f99c3bfd9669f2d8787816a11a64c6853b93026a8c8411eff7859a48f3210",
             PreHash := "f1534392279bddbf9d43dde8701cb5be14b82f76ec6607bf8d6ad557f60f304e",
             Difficulty := 1, Nonce := "0" } ∧
    PoW.isHashValid "0e1f99c3bfd9669f2d8787816a11a64c6853b93026a8c8411eff7859a48f3210" 1
      = some true :=
  have h : PoW.generateBlock 1 (PoW.genesisBlock "2018-07-01 10:00:00 +0800 CST") 2
        "2018-07-01 10:00:30 +0800 CST" =
      some { Index := 1, Timestamp := "2018-07-01 10:00:30 +0800 CST", BPM := 2,
             Hash := "0e1f99c3bfd9669f2d8787816a11a64c6853b93026a8c8411eff7859a48f3210",
             PreHash := "f1534392279bddbf9d43dde8701cb5be14b82f76ec6607bf8d6ad557f60f304e",
             Difficulty := 1, Nonce := "0" } := by decide
  ⟨h, (PoW.generateBlock_meets_difficulty 1 _ 2 _ _ h).2.2.2.2.1⟩

theorem Go.SprintfHex_counter (k : Nat) (hk : k < 9223372036854775808) :
    Go.SprintfHex (Go.wrapInt64 k) = Go.hexadecimal k := by
  rw [Go.wrapInt64_of_range _ (by omega) (by omega)]
  unfold Go.SprintfHex
  have : ¬ ((k : Int) < 0) := by omega
  simp [this]

/-- C4: when the proof-of-work `generateBlock` returns a block within 2^63 iterations of its
loop (before the counter `i` of type `int` can overflow), the `Nonce` of the block is the
lowercase hexadecimal text of a counter value `i` whose candidate hash passes `isHashValid`,
and the candidate hash of every smaller counter value fails it. -/
theorem PoW.generateBlock_first_nonce (fuel : Nat) (oldBlock : PoW.Block) (BPM : Int)
    (t : String) (newBlock : PoW.Block)
    (h : PoW.generateBlock fuel oldBlock BPM t = some newBlock)
    (hfuel : fuel ≤ 9223372036854775808) :
    ∃ i : Nat, newBlock.Nonce = Go.hexadecimal i ∧
      PoW.isHashValid
        (PoW.calculateHash { PoW.candidate oldBlock BPM t with Nonce := Go.hexadecimal i })
        PoW.difficulty = some true ∧
      ∀ j : Nat, j < i →
        PoW.isHashValid
          (PoW.calculateHash { PoW.candidate oldBlock BPM t with Nonce := Go.hexadecimal j })
          PoW.difficulty = some false := by
  unfold PoW.generateBlock at h
  have h0 : PoW.search (PoW.candidate oldBlock BPM t) fuel (Go.wrapInt64 ((0 : Nat) : Int))
      = some newBlock := h
  obtain ⟨k, -, hk, hb, hv, hlt⟩ := PoW.search_some fuel _ _ 0 h0
  have hk63 : k < 9223372036854775808 := by omega
  refine ⟨k, ?_, ?_, ?_⟩
  · have hn : newBlock.Nonce = Go.SprintfHex (Go.wrapInt64 k) := by rw [hb]
    rw [hn]
    exact Go.SprintfHex_counter k hk63
  · rw [← Go.SprintfHex_counter k hk63]; exact hv
  · intro j hj
    rw [← Go.SprintfHex_counter j (by omega)]
    exact hlt j (Nat.zero_le _) hj

set_option maxRecDepth 100000 in
/-- C4, at a concrete input: mining on the genesis block with payload 8 returns the nonce of
the counter value 2. -/
theorem PoW.generateBlock_first_nonce_witness :
    PoW.generateBlock 3 (PoW.genesisBlock "2018-07-01 10:00:00 +0800 CST") 8
        "2018-07-01 10:00:30 +0800 CST" =
      some { Index := 1, Timestamp := "2018-07-01 10:00:30 +0800 CST", BPM := 8,
             Hash := "02778e2a8e6516841e04b628fd9eda7ab6d168c4a6ea74cb1e94689859a2491a",
             PreHash := "f1534392279bddbf9d43dde8701cb5be14b82f76ec6607bf8d6ad557f60f304e",
             Difficulty := 1, Nonce := "2" } ∧
    ∃ i : Nat, "2" = Go.hexadecimal i ∧
      PoW.isHashValid
        (PoW.calculateHash
          { PoW.candidate (PoW.genesisBlock "2018-07-01 10:00:00 +0800 CST") 8
              "2018-07-01 10:00:30 +0800 CST" with Nonce := Go.hexadecimal i })
        PoW.difficulty = some true ∧
      ∀ j : Nat, j < i →
        PoW.isHashValid
          (PoW.calculateHash
            { PoW.candidate (PoW.genesisBlock "2018-07-01 10:00:00 +0800 CST") 8
                "2018-07-01 10:00:30 +0800 CST" with Nonce := Go.hexadecimal j })
          PoW.difficulty = some false :=
  have h : PoW.generateBlock 3 (PoW.genesisBlock "2018-07-01 10:00:00 +0800 CST") 8
        "2018-07-01 10:00:30 +0800 CST" =
      some { Index := 1, Timestamp := "2018-07-01 10:00:30 +0800 CST", BPM := 8,
             Hash := "02778e2a8e6516841e04b628fd9eda7ab6d168c4a6ea74cb1e94689859a2491a",
             PreHash := "f1534392279bddbf9d43dde8701cb5be14b82f76ec6607bf8d6ad557f60f304e",
             Difficulty := 1, Nonce := "2" } := by decide
  ⟨h, PoW.generateBlock_first_nonce 3 (PoW.genesisBlock "2018-07-01 10:00:00 +0800 CST") 8
    "2018-07-01 10:00:30 +0800 CST" _ h (by norm_num)⟩

/-! ## Chain integrity -/

namespace Chain

theorem lookup_concat {α : Type} (l : List α) (b : α) (i : Nat) (x : α)
    (h : (l ++ [b])[i]? = some x) :
    (i < l.length ∧ l[i]? = some x) ∨ (i = l.length ∧ x = b) := by
  rcases Nat.lt_trichotomy i l.length with hi | hi | hi
  · left; rw [List.getElem?_append_left hi] at h; exact ⟨hi, h⟩
  · right; subst hi; rw [List.getElem?_concat_length] at h; exact ⟨rfl, (Option.some.inj h).symm⟩
  · rw [List.getElem?_eq_none (by simp; omega)] at h; exact absurd h (by simp)

theorem last_eq_some {α : Type} (l : List α) (last : α) (h : l.getLast? = some last) :
    0 < l.length ∧ l[l.length - 1]? = some last := by
  rw [List.getLast?_eq_getElem?] at h
  refine ⟨?_, h⟩
  rcases Nat.eq_zero_or_pos l.length with h0 | h0
  · rw [List.getElem?_eq_none (by omega)] at h; exact absurd h (by simp)
  · exact h0

/-- Appending an element keeps a relation between adjacent elements, when the last element
and the new one are related. -/
theorem pairs_concat {α : Type} (R : α → α → Prop) (l : List α) (last b : α)
    (hl : l.getLast? = some last) (hR : R last b)
    (hp : ∀ (i : Nat) (p q : α), l[i]? = some p → l[i + 1]? = some q → R p q) :
    ∀ (i : Nat) (p q : α), (l ++ [b])[i]? = some p → (l ++ [b])[i + 1]? = some q → R p q := by
  intro i p q h1 h2
  obtain ⟨hpos, hlast⟩ := last_eq_some l last hl
  rcases lookup_concat l b (i + 1) q h2 with ⟨hi, hq⟩ | ⟨hi, hq⟩
  · rcases lookup_concat l b i p h1 with ⟨_, hp1⟩ | ⟨hi2, _⟩
    · exact hp i p q hp1 hq
    · omega
  · rcases lookup_concat l b i p h1 with ⟨_, hp1⟩ | ⟨hi2, _⟩
    · have : i = l.length - 1 := by omega
      subst this
      rw [hlast] at hp1
      cases hp1; subst hq; exact hR
    · omega

/-- Appending an element whose index is the index of the last element plus one keeps the
index of every element equal to its position (as an `int`). -/
theorem index_concat {α : Type} (idx : α → Int) (l : List α) (last b : α)
    (hl : l.getLast? = some last) (hb : idx b = Go.intAdd (idx last) 1)
    (hidx : ∀ (i : Nat) (x : α), l[i]? = some x → idx x = Go.wrapInt64 i) :
    ∀ (i : Nat) (x : α), (l ++ [b])[i]? = some x → idx x = Go.wrapInt64 i := by
  intro i x h
  obtain ⟨hpos, hlast⟩ := last_eq_some l last hl
  rcases lookup_concat l b i x h with ⟨_, hx⟩ | ⟨hi, hx⟩
  · exact hidx i x hx
  · subst hx hi
    rw [hb, hidx _ _ hlast, Go.intAdd_wrapInt64_one]
    congr 1
    omega

theorem head_concat {α : Type} (l : List α) (b g : α) (h : l.head? = some g) :
    (l ++ [b]).head? = some g := by
  cases l with
  | nil => simp at h
  | cons a l => simpa using h

end Chain

theorem DPoS.generateBlock_valid (oldBlock : DPoS.Block) (BPM : Int) (address t : String) :
    ∃ newBlock, DPoS.generateBlock oldBlock BPM address t = .ok newBlock ∧
      DPoS.isBlockValid newBlock oldBlock = true ∧
      newBlock.BPM = BPM ∧ newBlock.Delegate = address := by
  refine ⟨_, rfl, ?_, rfl, rfl⟩
  rw [DPoS.dpos_isBlockValid_eq_true_iff]
  exact ⟨rfl, rfl, rfl⟩

/-- One pass over the loop of `main` appends one block, valid against the last one. -/
theorem DPoS.iteration_chain (cd : Int) (s s1 : DPoS.State) (r : Nat) (t : String)
    (h : DPoS.iteration cd s r t = .next s1) :
    ∃ last b, s.Blockchain.getLast? = some last ∧ DPoS.isBlockValid b last = true ∧
      s1.Blockchain = s.Blockchain ++ [b] := by
  unfold DPoS.iteration at h
  split at h
  · exact absurd h (by simp)
  · split at h
    · rename_i bpm last delegate _ hlast _
      obtain ⟨nb, hg, hv, -, -⟩ := DPoS.generateBlock_valid last bpm delegate t
      rw [hg] at h
      simp only [hv, if_true] at h
      refine ⟨last, nb, hlast, hv, ?_⟩
      split at h
      · exact absurd h (by simp)
      · split at h
        · split at h
          · exact absurd h (by simp)
          · cases h; rfl
        · cases h; rfl
    · exact absurd h (by simp)

theorem DPoS.dpos_reachable_chain (s : DPoS.State) (hs : DPoS.Reachable s) :
    (∃ g, s.Blockchain.head? = some g ∧ g.Index = 0 ∧ g.PrevHash = "") ∧
    (∀ (i : Nat) (p q : DPoS.Block), s.Blockchain[i]? = some p → s.Blockchain[i + 1]? = some q →
      DPoS.isBlockValid q p = true) ∧
    (∀ (i : Nat) (x : DPoS.Block), s.Blockchain[i]? = some x → x.Index = Go.wrapInt64 i) := by
  induction hs with
  | start t =>
    refine ⟨⟨_, rfl, rfl, rfl⟩, ?_, ?_⟩
    · intro i p q _ h2
      simp [DPoS.start] at h2
    · intro i x h
      cases i with
      | zero => simp [DPoS.start] at h; subst h; rfl
      | succ i => simp [DPoS.start] at h
  | next r t _ hstep ih =>
    obtain ⟨last, b, hl, hv, hc⟩ := DPoS.iteration_chain _ _ _ _ _ hstep
    obtain ⟨⟨g, hg, hg0, hgp⟩, hp, hi⟩ := ih
    rw [hc]
    refine ⟨⟨g, Chain.head_concat _ b g hg, hg0, hgp⟩, ?_, ?_⟩
    · exact Chain.pairs_concat (fun p q => DPoS.isBlockValid q p = true) _ last b hl hv hp
    · exact Chain.index_concat DPoS.Block.Index _ last b hl
        ((DPoS.dpos_isBlockValid_eq_true_iff b last).1 hv).1 hi

/-- Chain integrity of the delegated-proof-of-stake program, whose loop is the only writer of
its chain: in every state reachable from the start of the loop the first block has `Index` 0
and an empty previous hash; every adjacent pair `(prev, cur)` has `cur.Index = prev.Index + 1`
(the addition of `int`, which is the addition of integers below 2^63 blocks), the previous
hash of `cur` equal to `prev.Hash`, and the hash recomputed from `cur` equal to `cur.Hash`; and
a further pass leaves the chain before it a prefix of the chain after it, at most one block
longer. -/
theorem DPoS.chain_integrity_of_reachable (s : DPoS.State) (hs : DPoS.Reachable s) :
    (∃ g, s.Blockchain.head? = some g ∧ g.Index = 0 ∧ g.PrevHash = "") ∧
    (∀ (i : Nat) (prev cur : DPoS.Block),
      s.Blockchain[i]? = some prev → s.Blockchain[i + 1]? = some cur →
        cur.Index = Go.intAdd prev.Index 1 ∧
        (i + 1 < 9223372036854775808 → cur.Index = prev.Index + 1) ∧
        cur.PrevHash = prev.Hash ∧ DPoS.caculateBlockHash cur = cur.Hash) ∧
    (∀ (r : Nat) (t : String) (s1 : DPoS.State),
      DPoS.iteration DPoS.countDelegate s r t = .next s1 →
        s.Blockchain <+: s1.Blockchain ∧ s1.Blockchain.length ≤ s.Blockchain.length + 1) := by
  obtain ⟨hg, hp, hi⟩ := DPoS.dpos_reachable_chain s hs
  refine ⟨hg, ?_, ?_⟩
  · intro i prev cur h1 h2
    obtain ⟨e1, e2, e3⟩ := (DPoS.dpos_isBlockValid_eq_true_iff cur prev).1 (hp i prev cur h1 h2)
    refine ⟨e1, ?_, e2, e3⟩
    intro hlt
    rw [hi _ _ h1, hi _ _ h2, Go.wrapInt64_of_range _ (by omega) (by omega),
      Go.wrapInt64_of_range _ (by omega) (by omega)]
    push_cast; rfl
  · intro r t s1 h
    obtain ⟨last, b, -, -, hc⟩ := DPoS.iteration_chain _ _ _ _ _ h
    rw [hc]
    exact ⟨List.prefix_append _ _, by simp⟩

/-! ## Proof of work: requests that overlap -/

theorem PoW.schedule_reachable (fuel : Nat) : ∀ (events : List PoW.Event) (s s1 : PoW.Server),
    PoW.Reachable s → PoW.Server.run fuel s events = some s1 → PoW.Reachable s1 := by
  intro events
  induction events with
  | nil =>
    intro s s1 hs h
    cases h
    exact hs
  | cons e events ih =>
    intro s s1 hs h
    cases e with
    | request BPM =>
      simp only [PoW.Server.run] at h
      exact ih _ s1 (PoW.Reachable.request BPM hs) h
    | step i t =>
      simp only [PoW.Server.run] at h
      split at h
      · rename_i s2 hstep
        exact ih s2 s1 (PoW.Reachable.step fuel t i hs hstep) h
      · exact absurd h (by simp)

set_option maxRecDepth 100000 in
set_option maxHeartbeats 2000000 in
/-- C2, the code at the failing input: two requests, with payloads 2 and 8, whose runs of
`handleWriteBlock` overlap. The first run mines on the genesis block and releases the mutex
(line 154); the second run then takes the mutex, mines on the same tail, releases the mutex
and finds its block valid against the genesis block (line 156); the first run finds its block
valid and appends it; the second run appends its block (line 157). The chain reached holds
two blocks of `Index` 1 with the hash of the genesis block as previous hash, and the adjacent
pair they form fails `isBlockValid`: neither the index step nor the hash link holds. When the
second request arrives after the first run is over, its block is mined on the first block and
the chain is linked. -/
theorem PoW.overlapping_writes_break_chain :
    PoW.Server.run 1 (PoW.Server.start "2018-07-01 10:00:00 +0800 CST")
        [.request 2, .request 8,
         .step 0 "2018-07-01 10:00:30 +0800 CST", .step 0 "2018-07-01 10:00:30 +0800 CST",
         .step 0 "2018-07-01 10:00:31 +0800 CST",
         .step 1 "2018-07-01 10:00:31 +0800 CST", .step 1 "2018-07-01 10:00:31 +0800 CST",
         .step 1 "2018-07-01 10:00:32 +0800 CST", .step 1 "2018-07-01 10:00:32 +0800 CST",
         .step 0 "2018-07-01 10:00:32 +0800 CST", .step 0 "2018-07-01 10:00:32 +0800 CST",
         .step 1 "2018-07-01 10:00:32 +0800 CST"] =
      some
        { Blockchain :=
            [PoW.genesisBlock "2018-07-01 10:00:00 +0800 CST", PoW.sampleFirst,
             PoW.sampleSecondOnGenesis],
          locked := false,
          handlers := [.replied PoW.sampleFirst, .replied PoW.sampleSecondOnGenesis] } ∧
    PoW.Reachable
        { Blockchain :=
            [PoW.genesisBlock "2018-07-01 10:00:00 +0800 CST", PoW.sampleFirst,
             PoW.sampleSecondOnGenesis],
          locked := false,
          handlers := [.replied PoW.sampleFirst, .replied PoW.sampleSecondOnGenesis] } ∧
    PoW.isBlockValid PoW.sampleSecondOnGenesis PoW.sampleFirst = false ∧
    PoW.sampleSecondOnGenesis.Index ≠ Go.intAdd PoW.sampleFirst.Index 1 ∧
    PoW.sampleSecondOnGenesis.PreHash ≠ PoW.sampleFirst.Hash ∧
    PoW.calculateHash PoW.sampleSecondOnGenesis = PoW.sampleSecondOnGenesis.Hash ∧
    (PoW.Server.run 9 (PoW.Server.start "2018-07-01 10:00:00 +0800 CST")
        [.request 2,
         .step 0 "2018-07-01 10:00:30 +0800 CST", .step 0 "2018-07-01 10:00:30 +0800 CST",
         .step 0 "2018-07-01 10:00:31 +0800 CST", .step 0 "2018-07-01 10:00:31 +0800 CST",
         .step 0 "2018-07-01 10:00:31 +0800 CST",
         .request 8,
         .step 1 "2018-07-01 10:00:31 +0800 CST", .step 1 "2018-07-01 10:00:31 +0800 CST",
         .step 1 "2018-07-01 10:00:32 +0800 CST", .step 1 "2018-07-01 10:00:32 +0800 CST",
         .step 1 "2018-07-01 10:00:32 +0800 CST"]).map PoW.Server.Blockchain =
      some [PoW.genesisBlock "2018-07-01 10:00:00 +0800 CST", PoW.sampleFirst,
        PoW.sampleSecondOnFirst] ∧
    PoW.isBlockValid PoW.sampleSecondOnFirst PoW.sampleFirst = true := by
  have hrun : PoW.Server.run 1 (PoW.Server.start "2018-07-01 10:00:00 +0800 CST")
        [.request 2, .request 8,
         .step 0 "2018-07-01 10:00:30 +0800 CST", .step 0 "2018-07-01 10:00:30 +0800 CST",
         .step 0 "2018-07-01 10:00:31 +0800 CST",
         .step 1 "2018-07-01 10:00:31 +0800 CST", .step 1 "2018-07-01 10:00:31 +0800 CST",
         .step 1 "2018-07-01 10:00:32 +0800 CST", .step 1 "2018-07-01 10:00:32 +0800 CST",
         .step 0 "2018-07-01 10:00:32 +0800 CST", .step 0 "2018-07-01 10:00:32 +0800 CST",
         .step 1 "2018-07-01 10:00:32 +0800 CST"] =
      some
        { Blockchain :=
            [PoW.genesisBlock "2018-07-01 10:00:00 +0800 CST", PoW.sampleFirst,
             PoW.sampleSecondOnGenesis],
          locked := false,
          handlers := [.replied PoW.sampleFirst, .replied PoW.sampleSecondOnGenesis] } := by
    decide
  exact ⟨hrun, PoW.schedule_reachable 1 _ _ _ (PoW.Reachable.start _) hrun,
    by decide, by decide, by decide, by decide, by decide, by decide⟩

/-! ## Proof of stake: sequential runs -/

namespace PoS

theorem bind_apply {α β : Type} (m : Exec α) (f : α → Exec β) (w : World) :
    (m >>= f) w = match m w with
      | .ok a w1 => f a w1
      | .fault e w1 => .fault e w1 := rfl

theorem pure_apply {α : Type} (a : α) (w : World) : (pure a : Exec α) w = .ok a w := rfl

theorem read_apply (w : World) : read w = .ok w w := rfl

theorem modify_apply (f : World → World) (w : World) : modify f w = .ok () (f w) := rfl

theorem Lock_free (w : World) (h : w.locked = false) :
    Lock w = .ok () { w with locked := true } := by
  simp [Lock, h]

theorem Lock_held (w : World) (h : w.locked = true) : Lock w = .fault .lockBlocked w := by
  simp [Lock, h]

theorem Unlock_held (w : World) (h : w.locked = true) :
    Unlock w = .ok () { w with locked := false } := by
  simp [Unlock, h]

theorem Unlock_free (w : World) (h : w.locked = false) :
    Unlock w = .fault .unlockOfUnlocked w := by
  simp [Unlock, h]

theorem World.unlock_lock (w : World) (h : w.locked = false) :
    { { w with locked := true } with locked := false } = w := by
  cases w; simp_all

end PoS


/-- The registry after the body of the submission loop: the entry of the session is deleted
when `strconv.Atoi` returns an error, and the registry is not written otherwise. -/
theorem PoS.submission_validators (w : PoS.World) (address text t : String) :
    (PoS.submission address text t w).world.validators =
      if (Go.Atoi text).2 = true then w.validators.filter (fun e => e.1 ≠ address)
      else w.validators := by
  unfold PoS.submission
  by_cases herr : (Go.Atoi text).2 = true <;> by_cases hl : w.locked = true <;>
    cases hlast : w.Blockchain.getLast? <;>
    simp [herr, hl, hlast, PoS.bind_apply, PoS.pure_apply, PoS.Lock, PoS.Unlock, PoS.lastBlock,
      PoS.modify, PoS.deleteValidator, PoS.Res.world, PoS.generateBlock] <;>
    split_ifs <;> simp [PoS.modify, PoS.pure_apply]

theorem PoS.lookup_filter_self (m : List (String × Int)) (address : String) :
    (m.filter (fun e => e.1 ≠ address)).lookup address = none := by
  induction m with
  | nil => rfl
  | cons e m ih =>
    obtain ⟨a, k⟩ := e
    simp only [List.filter_cons]
    split_ifs with hc
    · have hne : a ≠ address := by simpa using hc
      have h2 : (address == a) = false := beq_eq_false_iff_ne.mpr (Ne.symm hne)
      simp only [List.lookup_cons, h2]
      exact ih
    · exact ih

theorem PoS.lookup_filter_other (m : List (String × Int)) (address a : String)
    (ha : a ≠ address) :
    (m.filter (fun e => e.1 ≠ address)).lookup a = m.lookup a := by
  induction m with
  | nil => rfl
  | cons e m ih =>
    obtain ⟨b, k⟩ := e
    simp only [List.filter_cons]
    split_ifs with hc
    · simp only [List.lookup_cons]
      rw [ih]
    · have hb : b = address := by simpa using hc
      have h2 : (a == b) = false := beq_eq_false_iff_ne.mpr (hb ▸ ha)
      simp only [List.lookup_cons, h2]
      exact ih

/-- C10: after the body of the submission loop of `handleConn` on a line that `strconv.Atoi`
rejects, the registry has no entry for the address of the session and its other entries are
those it had before; on a line that `strconv.Atoi` accepts, the registry is as before. -/
theorem PoS.submission_registry (w : PoS.World) (address text t : String) :
    ((Go.Atoi text).2 = true →
      (PoS.submission address text t w).world.validators.lookup address = none ∧
      (∀ k : Int, (address, k) ∉ (PoS.submission address text t w).world.validators) ∧
      (∀ (a : String) (k : Int), a ≠ address →
        ((a, k) ∈ (PoS.submission address text t w).world.validators ↔ (a, k) ∈ w.validators)) ∧
      (∀ a : String, a ≠ address →
        (PoS.submission address text t w).world.validators.lookup a = w.validators.lookup a)) ∧
    ((Go.Atoi text).2 = false →
      (PoS.submission address text t w).world.validators = w.validators) := by
  rw [PoS.submission_validators]
  constructor
  · intro herr
    rw [if_pos herr]
    refine ⟨PoS.lookup_filter_self _ _, ?_, ?_, ?_⟩
    · intro k hk
      simp at hk
    · intro a k ha
      simp [ha]
    · intro a ha
      exact PoS.lookup_filter_other _ _ _ ha
  · intro herr
    rw [if_neg (by simp [herr])]

set_option maxRecDepth 100000 in
/-- C10, at concrete inputs: the session of `a` sends the line `abc`, then the line `72`. -/
theorem PoS.submission_registry_witness :
    (Go.Atoi "abc").2 = true ∧
    (PoS.submission "a" "abc" "2018-07-01 10:00:30 +0800 CST"
      { Blockchain := [PoS.genesisBlock "2018-07-01 10:00:00 +0800 CST"], tempBlocks := [],
        validators := [("a", 10), ("b", 1)], locked := false, candidateBlocks := [],
        announcements := [], connClosed := false }).world.validators = [("b", 1)] ∧
    (PoS.submission "a" "abc" "2018-07-01 10:00:30 +0800 CST"
      { Blockchain := [PoS.genesisBlock "2018-07-01 10:00:00 +0800 CST"], tempBlocks := [],
        validators := [("a", 10), ("b", 1)], locked := false, candidateBlocks := [],
        announcements := [], connClosed := false }).world.validators.lookup "a" = none ∧
    (Go.Atoi "72").2 = false ∧
    (PoS.submission "a" "72" "2018-07-01 10:00:30 +0800 CST"
      { Blockchain := [PoS.genesisBlock "2018-07-01 10:00:00 +0800 CST"], tempBlocks := [],
        validators := [("a", 10), ("b", 1)], locked := false, candidateBlocks := [],
        announcements := [], connClosed := false }).world.validators = [("a", 10), ("b", 1)] :=
  ⟨by decide, by decide,
    ((PoS.submission_registry _ "a" "abc" _).1 (by decide)).1,
    by decide,
    (PoS.submission_registry _ "a" "72" _).2 (by decide)⟩

/-! ## Proof of stake: the lottery -/

/-- One pass over loop `OUTER` when the mutex is free: the lock is taken and released around
the read of the registry, and the shared variables are left as they were. -/
theorem PoS.lotteryLoop_cons (w : PoS.World) (hfree : w.locked = false) (block : PoS.Block)
    (temp : List PoS.Block) (lotteryPool : List String) :
    PoS.lotteryLoop (block :: temp) lotteryPool w =
      if lotteryPool.contains block.Validator then PoS.lotteryLoop temp lotteryPool w
      else
        match w.validators.lookup block.Validator with
        | some k =>
          PoS.lotteryLoop temp (lotteryPool ++ List.replicate k.toNat block.Validator) w
        | none => PoS.lotteryLoop temp lotteryPool w := by
  rw [PoS.lotteryLoop]
  split_ifs with hc
  · rfl
  · simp only [PoS.bind_apply, PoS.Lock_free w hfree, PoS.read_apply,
      PoS.Unlock_held { w with locked := true } rfl, PoS.World.unlock_lock w hfree]
    cases w.validators.lookup block.Validator <;> rfl

/-- The stake that the lottery counts for a producer: its registered balance, and nothing
when the producer is not registered or the balance is negative. -/
theorem PoS.lotteryLoop_count (w : PoS.World) (hfree : w.locked = false) :
    ∀ (temp : List PoS.Block) (lotteryPool seen : List String),
      (∀ p : String, lotteryPool.count p =
        if p ∈ seen then ((w.validators.lookup p).getD 0).toNat else 0) →
      ∃ pool, PoS.lotteryLoop temp lotteryPool w = .ok pool w ∧
        ∀ p : String, pool.count p =
          if p ∈ seen ++ temp.map PoS.Block.Validator then
            ((w.validators.lookup p).getD 0).toNat
          else 0 := by
  intro temp
  induction temp with
  | nil =>
    intro pool seen h
    exact ⟨pool, rfl, by simpa using h⟩
  | cons block temp ih =>
    intro pool seen h
    rw [PoS.lotteryLoop_cons w hfree]
    have hmem : ∀ p : String, p ∈ seen ++ (block :: temp).map PoS.Block.Validator ↔
        p ∈ (seen ++ [block.Validator]) ++ temp.map PoS.Block.Validator := by
      intro p; simp
    split_ifs with hc
    · -- the validator is in the pool already
      have hin : block.Validator ∈ pool := by simpa using hc
      have hpos : 0 < pool.count block.Validator := List.count_pos_iff.mpr hin
      have hseen : block.Validator ∈ seen := by
        by_contra hns
        have := h block.Validator
        rw [if_neg hns] at this
        omega
      obtain ⟨res, hres, hcount⟩ := ih pool (seen ++ [block.Validator]) (by
        intro p
        rw [h p]
        by_cases hp : p = block.Validator
        · subst hp; simp [hseen]
        · simp [hp])
      exact ⟨res, hres, fun p => by rw [hcount p]; simp only [hmem p]⟩
    · have hnotin : block.Validator ∉ pool := by simpa using hc
      have hzero : pool.count block.Validator = 0 := List.count_eq_zero.mpr hnotin
      cases hk : w.validators.lookup block.Validator with
      | none =>
        obtain ⟨res, hres, hcount⟩ := ih pool (seen ++ [block.Validator]) (by
          intro p
          rw [h p]
          by_cases hp : p = block.Validator
          · subst hp
            have := h block.Validator
            rw [hzero] at this
            simp [hk]
          · simp [hp])
        exact ⟨res, hres, fun p => by rw [hcount p]; simp only [hmem p]⟩
      | some k =>
        obtain ⟨res, hres, hcount⟩ := ih (pool ++ List.replicate k.toNat block.Validator)
          (seen ++ [block.Validator]) (by
          intro p
          rw [List.count_append, List.count_replicate, h p]
          by_cases hp : p = block.Validator
          · subst hp
            have hS : ((w.validators.lookup block.Validator).getD 0).toNat = k.toNat := by
              rw [hk]; rfl
            by_cases hs : block.Validator ∈ seen
            · have h0 := h block.Validator
              rw [hzero, if_pos hs, hS] at h0
              simp [hs, hS]
              omega
            · simp [hs, hS]
          · have hp2 : (block.Validator == p) = false := by
              simpa using fun e => hp e.symm
            simp [hp, hp2])
        exact ⟨res, hres, fun p => by rw [hcount p]; simp only [hmem p]⟩

theorem PoS.mem_of_lookup (m : List (String × Int)) (a : String) (k : Int)
    (h : m.lookup a = some k) : (a, k) ∈ m := by
  induction m with
  | nil => simp at h
  | cons e m ih =>
    obtain ⟨b, j⟩ := e
    rw [List.lookup_cons] at h
    by_cases hb : a = b
    · have h2 : (a == b) = true := by simpa using hb
      simp only [h2] at h
      cases h
      subst hb
      exact List.mem_cons_self _ _
    · have h2 : (a == b) = false := by simpa using hb
      simp only [h2] at h
      exact List.mem_cons_of_mem _ (ih h)

/-- C7: when the mutex is free and no registered balance is negative, loop `OUTER` of
`pickWinner` returns a lottery pool in which every producer occurs as many times as its
registered balance when it is registered and is the `Validator` of a block of the snapshot,
and does not occur otherwise, whatever the number of its blocks in the snapshot; the length
of the pool is the sum of the balances of the producers in it. -/
theorem PoS.lottery_weights (w : PoS.World) (temp : List PoS.Block)
    (hfree : w.locked = false)
    (hstakes : ∀ (a : String) (k : Int), (a, k) ∈ w.validators → 0 ≤ k) :
    ∃ lotteryPool, PoS.lotteryLoop temp [] w = .ok lotteryPool w ∧
      (∀ p : String, (lotteryPool.count p : Int) =
        match w.validators.lookup p with
        | some k => if p ∈ temp.map PoS.Block.Validator then k else 0
        | none => 0) ∧
      (lotteryPool.length : Int) =
        (lotteryPool.dedup.map fun p => (w.validators.lookup p).getD 0).sum := by
  obtain ⟨pool, hpool, hcount⟩ := PoS.lotteryLoop_count w hfree temp [] [] (by simp)
  have hc : ∀ p : String, (pool.count p : Int) =
      match w.validators.lookup p with
      | some k => if p ∈ temp.map PoS.Block.Validator then k else 0
      | none => 0 := by
    intro p
    rw [hcount p]
    cases hk : w.validators.lookup p with
    | none => simp
    | some k =>
      have hk0 : 0 ≤ k := hstakes p k (PoS.mem_of_lookup _ _ _ hk)
      by_cases hp : p ∈ temp.map PoS.Block.Validator
      · have hp2 : p ∈ [] ++ temp.map PoS.Block.Validator := by simpa using hp
        rw [if_pos hp2]
        simp only [Option.getD_some, if_pos hp]
        omega
      · have hp2 : p ∉ [] ++ temp.map PoS.Block.Validator := by simpa using hp
        rw [if_neg hp2]
        simp only [if_neg hp]
        rfl
  refine ⟨pool, hpool, hc, ?_⟩
  have hlen : ((pool.dedup.map fun x => pool.count x).sum : Int) = pool.length := by
    rw [List.sum_map_count_dedup_eq_length]
  rw [← hlen]
  push_cast
  rw [List.map_map]
  congr 1
  apply List.map_congr_left
  intro p hp
  have hpin : p ∈ pool := List.mem_dedup.mp hp
  have hpos : 0 < pool.count p := List.count_pos_iff.mpr hpin
  have h1 := hc p
  simp only [Function.comp]
  rw [h1]
  cases hk : w.validators.lookup p with
  | none => rw [hk] at h1; simp at h1; omega
  | some k =>
    rw [hk] at h1
    by_cases hpt : p ∈ temp.map PoS.Block.Validator
    · simp [hpt]
    · simp only [if_neg hpt] at h1; omega

theorem PoS.lotteryLoop_held (w : PoS.World) (hheld : w.locked = true) (temp : List PoS.Block) :
    PoS.lotteryLoop temp [] w = .ok [] w ∨ PoS.lotteryLoop temp [] w = .fault .lockBlocked w := by
  cases temp with
  | nil => exact Or.inl rfl
  | cons block temp =>
    right
    rw [PoS.lotteryLoop]
    simp [PoS.bind_apply, PoS.Lock_held w hheld]

theorem PoS.draw_ok (pool : List String) (r : Nat) (w w1 : PoS.World) (winner : String)
    (h : PoS.draw pool r w = .ok winner w1) : winner ∈ pool ∧ w1 = w := by
  unfold PoS.draw at h
  split at h
  · exact absurd h (by simp)
  · split at h
    · rename_i i _ v hv
      cases h
      exact ⟨List.getElem?_mem hv, rfl⟩
    · exact absurd h (by simp)

/-- C8: when the lottery of `pickWinner` selects a winner, the winner is the `Validator` of a
block of the snapshot and is registered with a balance of at least 1; a producer that is not
registered, or whose balance is 0 or less, is not the winner. -/
theorem PoS.lottery_winner_eligible (w w1 : PoS.World) (temp : List PoS.Block) (r : Nat)
    (lotteryWinner : String) (h : PoS.lottery temp r w = .ok lotteryWinner w1) :
    (∃ block ∈ temp, block.Validator = lotteryWinner) ∧
    (∃ k : Int, w.validators.lookup lotteryWinner = some k ∧ 1 ≤ k) ∧
    (∀ p : String, w.validators.lookup p = none → lotteryWinner ≠ p) ∧
    (∀ (p : String) (k : Int), w.validators.lookup p = some k → k ≤ 0 → lotteryWinner ≠ p) := by
  have hfree : w.locked = false := by
    by_contra hl
    have hheld : w.locked = true := by simpa using hl
    unfold PoS.lottery at h
    rw [PoS.bind_apply] at h
    rcases PoS.lotteryLoop_held w hheld temp with h0 | h0
    · rw [h0] at h
      simp [PoS.draw, Go.Intn] at h
    · rw [h0] at h
      simp at h
  obtain ⟨pool, hpool, hcount⟩ := PoS.lotteryLoop_count w hfree temp [] [] (by simp)
  unfold PoS.lottery at h
  rw [PoS.bind_apply, hpool] at h
  obtain ⟨hin, -⟩ := PoS.draw_ok pool r w w1 lotteryWinner h
  have hpos : 0 < pool.count lotteryWinner := List.count_pos_iff.mpr hin
  have hc := hcount lotteryWinner
  have hmem : lotteryWinner ∈ temp.map PoS.Block.Validator := by
    by_contra hn
    rw [if_neg (by simpa using hn)] at hc
    omega
  rw [if_pos (by simpa using hmem)] at hc
  have hk : ∃ k : Int, w.validators.lookup lotteryWinner = some k ∧ 1 ≤ k := by
    cases hl : w.validators.lookup lotteryWinner with
    | none => rw [hl] at hc; simp at hc; omega
    | some k =>
      rw [hl] at hc
      simp only [Option.getD_some] at hc
      exact ⟨k, rfl, by omega⟩
  obtain ⟨k, hk1, hk2⟩ := hk
  refine ⟨?_, ⟨k, hk1, hk2⟩, ?_, ?_⟩
  · obtain ⟨block, hb, hv⟩ := List.mem_map.mp hmem
    exact ⟨block, hb, hv⟩
  · intro p hp e
    subst e
    rw [hk1] at hp
    exact absurd hp (by simp)
  · intro p j hp hj e
    subst e
    rw [hk1] at hp
    cases hp
    omega

/-! ## Proof of stake: what a round writes -/

namespace PoS

theorem keeps_bind {α β : Type} (m : Exec α) (f : α → Exec β)
    (hm : ∀ w, (m w).world.Blockchain = w.Blockchain)
    (hf : ∀ a w, (f a w).world.Blockchain = w.Blockchain) :
    ∀ w, ((m >>= f) w).world.Blockchain = w.Blockchain := by
  intro w
  rw [bind_apply]
  have h1 := hm w
  cases hmw : m w with
  | ok a w1 =>
    rw [hmw] at h1
    simp only
    rw [hf a w1]
    exact h1
  | fault e w1 =>
    rw [hmw] at h1
    exact h1

theorem keeps_Lock : ∀ w, (Lock w).world.Blockchain = w.Blockchain := by
  intro w; unfold Lock; split <;> rfl

theorem keeps_Unlock : ∀ w, (Unlock w).world.Blockchain = w.Blockchain := by
  intro w; unfold Unlock; split <;> rfl

theorem keeps_read : ∀ w, (read w).world.Blockchain = w.Blockchain := fun _ => rfl

theorem keeps_pure {α : Type} (a : α) :
    ∀ w, ((pure a : Exec α) w).world.Blockchain = w.Blockchain := fun _ => rfl

theorem keeps_lotteryLoop : ∀ (temp : List Block) (pool : List String) (w : World),
    (lotteryLoop temp pool w).world.Blockchain = w.Blockchain := by
  intro temp
  induction temp with
  | nil => intro pool w; rfl
  | cons block temp ih =>
    intro pool
    rw [lotteryLoop]
    split_ifs
    · exact ih pool
    · refine keeps_bind _ _ keeps_Lock fun _ => ?_
      refine keeps_bind _ _ keeps_read fun w0 => ?_
      refine keeps_bind _ _ keeps_Unlock fun _ => ?_
      cases List.lookup block.Validator w0.validators with
      | none => exact ih _
      | some k => exact ih _

theorem keeps_draw (pool : List String) (r : Nat) :
    ∀ w, (draw pool r w).world.Blockchain = w.Blockchain := by
  intro w; unfold draw; split
  · rfl
  · split <;> rfl

theorem keeps_commitLoop (winner : String) : ∀ (temp : List Block) (w : World),
    (commitLoop winner temp w).world.Blockchain = w.Blockchain := by
  intro temp
  induction temp with
  | nil => intro w; rfl
  | cons block temp ih =>
    rw [commitLoop]
    split_ifs
    · exact keeps_bind _ _ keeps_Unlock fun _ _ => rfl
    · exact ih

/-- Function `pickWinner` has no assignment to `Blockchain`: whatever the round does, the
chain at its end is the chain at its start. -/
theorem keeps_pickWinner (r : Nat) : ∀ w, (pickWinner r w).world.Blockchain = w.Blockchain := by
  unfold pickWinner
  refine keeps_bind _ _ keeps_Lock fun _ => ?_
  refine keeps_bind _ _ keeps_read fun w0 => ?_
  refine keeps_bind _ _ keeps_Unlock fun _ => ?_
  have hreset : ∀ w, ((do
      Lock
      modify fun w => { w with tempBlocks := [] }
      Unlock : Exec Unit) w).world.Blockchain = w.Blockchain := by
    refine keeps_bind _ _ keeps_Lock fun _ => ?_
    exact keeps_bind _ _ (fun _ => rfl) fun _ => keeps_Unlock
  split_ifs
  · refine keeps_bind _ _ ?_ fun _ => ?_
    · unfold lottery
      exact keeps_bind _ _ (keeps_lotteryLoop _ _) fun _ => keeps_draw _ _
    · exact keeps_bind _ _ (keeps_commitLoop _ _) fun _ => hreset
  · exact keeps_bind _ _ (keeps_pure _) fun _ => hreset

end PoS

set_option maxRecDepth 100000 in
set_option maxHeartbeats 2000000 in
/-- C7, at a concrete input: `a` has balance 3 and two blocks in the snapshot, `b` has balance
1, `c` has balance 0, and `d` is not registered. -/
theorem PoS.lottery_weights_witness :
    PoS.lotteryLoop
        [PoS.sampleCandidate "a" 70, PoS.sampleCandidate "b" 80, PoS.sampleCandidate "a" 75,
          PoS.sampleCandidate "c" 60, PoS.sampleCandidate "d" 65] []
        (PoS.sampleWorld [] [("a", 3), ("b", 1), ("c", 0)]) =
      .ok ["a", "a", "a", "b"] (PoS.sampleWorld [] [("a", 3), ("b", 1), ("c", 0)]) ∧
    ∃ lotteryPool,
      PoS.lotteryLoop
          [PoS.sampleCandidate "a" 70, PoS.sampleCandidate "b" 80, PoS.sampleCandidate "a" 75,
            PoS.sampleCandidate "c" 60, PoS.sampleCandidate "d" 65] []
          (PoS.sampleWorld [] [("a", 3), ("b", 1), ("c", 0)]) =
        .ok lotteryPool (PoS.sampleWorld [] [("a", 3), ("b", 1), ("c", 0)]) ∧
      (∀ p : String, (lotteryPool.count p : Int) =
        match (PoS.sampleWorld [] [("a", 3), ("b", 1), ("c", 0)]).validators.lookup p with
        | some k =>
          if p ∈ [PoS.sampleCandidate "a" 70, PoS.sampleCandidate "b" 80,
              PoS.sampleCandidate "a" 75, PoS.sampleCandidate "c" 60,
              PoS.sampleCandidate "d" 65].map PoS.Block.Validator then k else 0
        | none => 0) ∧
      (lotteryPool.length : Int) =
        (lotteryPool.dedup.map fun p =>
          ((PoS.sampleWorld [] [("a", 3), ("b", 1), ("c", 0)]).validators.lookup p).getD 0).sum :=
  ⟨by decide,
   PoS.lottery_weights (PoS.sampleWorld [] [("a", 3), ("b", 1), ("c", 0)]) _ rfl (by
    intro a k h
    simp only [PoS.sampleWorld, List.mem_cons, Prod.mk.injEq, List.mem_nil_iff, or_false] at h
    rcases h with ⟨-, rfl⟩ | ⟨-, rfl⟩ | ⟨-, rfl⟩ <;> decide)⟩

set_option maxRecDepth 100000 in
set_option maxHeartbeats 2000000 in
/-- C8, at a concrete input: with the pool `a, a, a, b` the draw of index 3 selects `b`. -/
theorem PoS.lottery_winner_eligible_witness :
    PoS.lottery
        [PoS.sampleCandidate "a" 70, PoS.sampleCandidate "b" 80, PoS.sampleCandidate "a" 75,
          PoS.sampleCandidate "c" 60, PoS.sampleCandidate "d" 65] 7
        (PoS.sampleWorld [] [("a", 3), ("b", 1), ("c", 0)]) =
      .ok "b" (PoS.sampleWorld [] [("a", 3), ("b", 1), ("c", 0)]) ∧
    (∃ block ∈ [PoS.sampleCandidate "a" 70, PoS.sampleCandidate "b" 80,
        PoS.sampleCandidate "a" 75, PoS.sampleCandidate "c" 60, PoS.sampleCandidate "d" 65],
      block.Validator = "b") ∧
    (∃ k : Int,
      (PoS.sampleWorld [] [("a", 3), ("b", 1), ("c", 0)]).validators.lookup "b" = some k ∧
        1 ≤ k) :=
  have h : PoS.lottery
        [PoS.sampleCandidate "a" 70, PoS.sampleCandidate "b" 80, PoS.sampleCandidate "a" 75,
          PoS.sampleCandidate "c" 60, PoS.sampleCandidate "d" 65] 7
        (PoS.sampleWorld [] [("a", 3), ("b", 1), ("c", 0)]) =
      .ok "b" (PoS.sampleWorld [] [("a", 3), ("b", 1), ("c", 0)]) := by decide
  ⟨h, (PoS.lottery_winner_eligible _ _ _ 7 "b" h).1, (PoS.lottery_winner_eligible _ _ _ 7 "b" h).2.1⟩

/-! ## Proof of stake: the code at the inputs where it departs from the specification -/

set_option maxRecDepth 100000 in
/-- C5, the code at the failing input: the pool holds one block of `a`, registered with
balance 1. The lottery selects `a`; the last loop of `pickWinner` then calls `mutex.Unlock()` on
the free mutex and stops with the fatal error, without an append to `Blockchain`. In no round
at all does `pickWinner` change `Blockchain`. -/
theorem PoS.pickWinner_winner_not_committed :
    PoS.lottery [PoS.sampleCandidate "a" 72] 0
        (PoS.sampleWorld [PoS.sampleCandidate "a" 72] [("a", 1)]) =
      .ok "a" (PoS.sampleWorld [PoS.sampleCandidate "a" 72] [("a", 1)]) ∧
    PoS.pickWinner 0 (PoS.sampleWorld [PoS.sampleCandidate "a" 72] [("a", 1)]) =
      .fault .unlockOfUnlocked (PoS.sampleWorld [PoS.sampleCandidate "a" 72] [("a", 1)]) ∧
    (PoS.pickWinner 0 (PoS.sampleWorld [PoS.sampleCandidate "a" 72] [("a", 1)])).world.Blockchain =
      [PoS.genesisBlock "2018-07-01 10:00:00 +0800 CST"] ∧
    (∀ (r : Nat) (w : PoS.World), (PoS.pickWinner r w).world.Blockchain = w.Blockchain) :=
  ⟨by decide, by decide, by decide, fun r w => PoS.keeps_pickWinner r w⟩

set_option maxRecDepth 100000 in
/-- C6, the code at the failing input: the pool holds one block of a producer whose balance
is 0, or who is not registered. The lottery pool is empty, `Intn(0)` panics, and the round
stops before the pool is cleared. With an empty pool the round returns. -/
theorem PoS.pickWinner_empty_lottery_panics :
    PoS.pickWinner 0 (PoS.sampleWorld [PoS.sampleCandidate "c" 72] [("c", 0)]) =
      .fault .intnPanic (PoS.sampleWorld [PoS.sampleCandidate "c" 72] [("c", 0)]) ∧
    PoS.pickWinner 0 (PoS.sampleWorld [PoS.sampleCandidate "d" 72] []) =
      .fault .intnPanic (PoS.sampleWorld [PoS.sampleCandidate "d" 72] []) ∧
    PoS.pickWinner 0 (PoS.sampleWorld [] [("c", 0)]) = .ok () (PoS.sampleWorld [] [("c", 0)]) :=
  ⟨by decide, by decide, by decide⟩

set_option maxRecDepth 100000 in
/-- C9, the code at the failing input: the session of `a` sends the line `abc`. The entry of
`a` is deleted and the connection is closed, but the loop body goes on with `bpm = 0`: it
builds a block on the chain tail and sends it on `candidateBlocks`. -/
theorem PoS.submission_sends_after_error :
    Go.Atoi "abc" = (0, true) ∧
    PoS.submission "a" "abc" "2018-07-01 10:00:30 +0800 CST"
        (PoS.sampleWorld [] [("a", 10), ("b", 1)]) =
      .ok ()
        { PoS.sampleWorld [] [("b", 1)] with
          candidateBlocks := [PoS.sampleCandidate "a" 0], connClosed := true } ∧
    PoS.isBlockValid (PoS.sampleCandidate "a" 0)
      (PoS.genesisBlock "2018-07-01 10:00:00 +0800 CST") = true :=
  ⟨by decide, by decide, by decide⟩

/-! ## Construction and validation -/

theorem PoS.pos_generateBlock_valid (oldBlock : PoS.Block) (BPM : Int) (address t : String) :
    ∃ newBlock, PoS.generateBlock oldBlock BPM address t = .ok newBlock ∧
      PoS.isBlockValid newBlock oldBlock = true ∧
      newBlock.BPM = BPM ∧ newBlock.Validator = address := by
  refine ⟨_, rfl, ?_, rfl, rfl⟩
  rw [PoS.pos_isBlockValid_eq_true_iff]
  exact ⟨rfl, rfl, rfl⟩

/-- C16: in the proof-of-stake and the delegated-proof-of-stake programs, for every
predecessor, payload, address and timestamp, `generateBlock` returns a block (with a nil
error) that `isBlockValid` accepts against the predecessor, and the block carries the payload
and the address. -/
theorem generateBlock_passes_isBlockValid :
    (∀ (oldBlock : PoS.Block) (BPM : Int) (address t : String),
      ∃ newBlock, PoS.generateBlock oldBlock BPM address t = .ok newBlock ∧
        PoS.isBlockValid newBlock oldBlock = true ∧
        newBlock.BPM = BPM ∧ newBlock.Validator = address) ∧
    (∀ (oldBlock : DPoS.Block) (BPM : Int) (address t : String),
      ∃ newBlock, DPoS.generateBlock oldBlock BPM address t = .ok newBlock ∧
        DPoS.isBlockValid newBlock oldBlock = true ∧
        newBlock.BPM = BPM ∧ newBlock.Delegate = address) :=
  ⟨PoS.pos_generateBlock_valid, DPoS.generateBlock_valid⟩


set_option maxRecDepth 100000 in
/-- C19: the result of `isBlockValid` does not change when only the producer field of the
candidate (`Validator`, `Delegate`) or, in the proof-of-work program, its `Difficulty` is
replaced; and the proof-of-work `isBlockValid` accepts a block whose hash fails `isHashValid`
for the difficulty of the block. -/
theorem isBlockValid_ignores_unhashed_fields :
    (∀ (newBlock oldBlock : PoS.Block) (v : String),
      PoS.isBlockValid { newBlock with Validator := v } oldBlock =
        PoS.isBlockValid newBlock oldBlock) ∧
    (∀ (newBlock oldBlock : DPoS.Block) (d : String),
      DPoS.isBlockValid { newBlock with Delegate := d } oldBlock =
        DPoS.isBlockValid newBlock oldBlock) ∧
    (∀ (newBlock oldBlock : PoW.Block) (d : Int),
      PoW.isBlockValid { newBlock with Difficulty := d } oldBlock =
        PoW.isBlockValid newBlock oldBlock) ∧
    (∃ newBlock oldBlock : PoW.Block,
      PoW.isBlockValid newBlock oldBlock = true ∧
        PoW.isHashValid newBlock.Hash newBlock.Difficulty = some false) := by
  refine ⟨fun _ _ _ => rfl, fun _ _ _ => rfl, fun _ _ _ => rfl, ?_⟩
  refine ⟨{ Index := 1, Timestamp := "2018-07-01 10:00:30 +0800 CST", BPM := 8,
            Hash := "abc8e3021a3d7fdfc4a4967bf4152517e2504fb3919a25cc1fa226106d9f9c1e",
            PreHash := "f1534392279bddbf9d43dde8701cb5be14b82f76ec6607bf8d6ad557f60f304e",
            Difficulty := 1, Nonce := "0" },
          PoW.genesisBlock "2018-07-01 10:00:00 +0800 CST", ?_, ?_⟩
  · decide
  · decide

/-! ## Delegated proof of stake: the schedule -/

theorem DPoS.randDelegate_eq_rotate (l : List String) (h : l ≠ []) :
    DPoS.randDelegate l = some (l.rotate 1) := by
  cases l with
  | nil => exact absurd rfl h
  | cons first rest => simp [DPoS.randDelegate, List.rotate_cons_succ]

theorem DPoS.randDelegate_iterate (n : Nat) : ∀ (l : List String), l ≠ [] →
    (fun o : Option (List String) => o.bind DPoS.randDelegate)^[n] (some l) =
      some (l.rotate n) := by
  induction n with
  | zero => intro l _; simp
  | succ n ih =>
    intro l h
    rw [Function.iterate_succ_apply', ih l h]
    have hne : l.rotate n ≠ [] := by
      intro e
      have := congrArg List.length e
      simp at this
      exact h this
    show DPoS.randDelegate (l.rotate n) = some (l.rotate (n + 1))
    rw [DPoS.randDelegate_eq_rotate _ hne, List.rotate_rotate]

/-- C13: for a non-empty schedule `l`, `randDelegate l` is the tail of `l` followed by the head
of `l` (the rotation to the left by one position); it has the length of `l` and the same
delegates with the same multiplicities; applying it `len(l)` times gives `l` back. -/
theorem DPoS.randDelegate_rotates_left (l : List String) (h : l ≠ []) :
    DPoS.randDelegate l = some (l.tail ++ [l.head h]) ∧
    DPoS.randDelegate l = some (l.rotate 1) ∧
    (l.tail ++ [l.head h]).length = l.length ∧
    (l.tail ++ [l.head h]).Perm l ∧
    (∀ d : String, (l.tail ++ [l.head h]).count d = l.count d) ∧
    (fun o : Option (List String) => o.bind DPoS.randDelegate)^[l.length] (some l) = some l := by
  have hrot := DPoS.randDelegate_eq_rotate l h
  have htail : l.tail ++ [l.head h] = l.rotate 1 := by
    cases l with
    | nil => exact absurd rfl h
    | cons first rest => simp [List.rotate_cons_succ]
  rw [htail]
  refine ⟨hrot, hrot, List.length_rotate _ _, List.rotate_perm _ _, ?_, ?_⟩
  · intro d
    exact (List.rotate_perm l 1).count_eq d
  · rw [DPoS.randDelegate_iterate _ l h, List.rotate_length]

/-- C13, at a concrete input: the initial schedule of the program. -/
theorem DPoS.randDelegate_rotates_left_witness :
    DPoS.randDelegate ["001", "002", "003", "004", "005"] =
      some ["002", "003", "004", "005", "001"] ∧
    (fun o : Option (List String) => o.bind DPoS.randDelegate)^[5]
      (some ["001", "002", "003", "004", "005"]) = some ["001", "002", "003", "004", "005"] :=
  ⟨(DPoS.randDelegate_rotates_left ["001", "002", "003", "004", "005"] (by decide)).1,
   (DPoS.randDelegate_rotates_left ["001", "002", "003", "004", "005"] (by decide)).2.2.2.2.2⟩

/-- One pass over the loop of `main`, from a state with five delegates, a cursor `i` below 5 and
a chain that is not empty: the delegate at the cursor adds one block, the cursor becomes
`(i + 1) mod 5`, and the schedule is rotated when the cursor becomes 0. -/
theorem DPoS.iteration_next (s : DPoS.State) (i : Nat) (hlen : s.delegates.length = 5)
    (hi : s.indexDelegate = i) (hi5 : i < 5) (hne : s.Blockchain ≠ []) (r : Nat) (t : String) :
    ∃ b d, s.delegates[i]? = some d ∧ b.Delegate = d ∧
      DPoS.iteration DPoS.countDelegate s r t =
        .next { Blockchain := s.Blockchain ++ [b],
                delegates := if i + 1 = 5 then s.delegates.rotate 1 else s.delegates,
                indexDelegate := ((i + 1) % 5 : Nat) } := by
  obtain ⟨chain, ds, idx⟩ := s
  simp only at hlen hi hne
  subst hi
  obtain ⟨last, hlast⟩ : ∃ last, chain.getLast? = some last := by
    cases h : chain.getLast? with
    | none => exact absurd (List.getLast?_eq_none_iff.mp h) hne
    | some last => exact ⟨last, rfl⟩
  have hd : ∃ d, ds[i]? = some d := ⟨ds[i], List.getElem?_eq_getElem (by omega)⟩
  obtain ⟨d, hd⟩ := hd
  obtain ⟨b, hg, hv, -, hdel⟩ := DPoS.generateBlock_valid last (r % 100 : Nat) d t
  refine ⟨b, d, hd, hdel, ?_⟩
  have hidx : DPoS.index ds (i : Int) = some d := by
    unfold DPoS.index
    have : ¬ ((i : Int) < 0) := by omega
    simp [this, hd]
  have hintn : Go.Intn 100 r = some (r % 100) := by simp [Go.Intn]
  have hrand : DPoS.randDelegate ds = some (ds.rotate 1) :=
    DPoS.randDelegate_eq_rotate ds (by intro e; simp [e] at hlen)
  unfold DPoS.iteration
  simp only [DPoS.countDelegate, hintn, hlast, hidx, hg, hv, if_true]
  interval_cases i <;> simp [Go.intAdd, Go.wrapInt64, Int.tmod, hrand]

theorem DPoS.reachable_schedule (s : DPoS.State) (hs : DPoS.Reachable s) :
    s.delegates.length = 5 ∧ 0 ≤ s.indexDelegate ∧ s.indexDelegate < 5 ∧
      s.Blockchain ≠ [] ∧ s.delegates.Nodup := by
  induction hs with
  | start t =>
    refine ⟨rfl, ?_, ?_, by simp [DPoS.start], ?_⟩
    · show (0 : Int) ≤ Go.intAdd 0 1
      decide
    · show Go.intAdd 0 1 < 5
      decide
    · show ["001", "002", "003", "004", "005"].Nodup
      decide
  | @next s s1 r t _ hstep ih =>
    obtain ⟨hlen, h0, h5, hne, hnd⟩ := ih
    obtain ⟨i, hi⟩ : ∃ i : Nat, s.indexDelegate = i := ⟨s.indexDelegate.toNat, by omega⟩
    have hi5 : i < 5 := by omega
    obtain ⟨b, d, -, -, hit⟩ := DPoS.iteration_next s i hlen hi hi5 hne r t
    rw [hit] at hstep
    cases hstep
    refine ⟨?_, by simp only; omega, by simp only; omega, by simp, ?_⟩
    · simp only
      split_ifs
      · rw [List.length_rotate]; exact hlen
      · exact hlen
    · simp only
      split_ifs
      · exact List.nodup_rotate.mpr hnd
      · exact hnd

/-- C17: in every state that the loop of the delegated-proof-of-stake `main` reaches, the
cursor satisfies `0 <= indexDelegate < len(delegates)`, the schedule has its initial length 5,
the chain is not empty, `delegates[indexDelegate]` and `Blockchain[len(Blockchain)-1]` are in
range, and a pass over the loop neither exits nor panics: it gives a state whose cursor is
`(indexDelegate + 1) mod len(delegates)` and whose schedule has the same length. -/
theorem DPoS.cursor_invariant (s : DPoS.State) (hs : DPoS.Reachable s) :
    0 ≤ s.indexDelegate ∧ s.indexDelegate < s.delegates.length ∧
    s.delegates.length = 5 ∧ s.Blockchain ≠ [] ∧
    (∃ d, DPoS.index s.delegates s.indexDelegate = some d) ∧
    (∃ last, s.Blockchain.getLast? = some last) ∧
    ∀ (r : Nat) (t : String), ∃ s1,
      DPoS.iteration DPoS.countDelegate s r t = .next s1 ∧
      s1.indexDelegate = (s.indexDelegate + 1) % s.delegates.length ∧
      s1.delegates.length = s.delegates.length := by
  obtain ⟨hlen, h0, h5, hne, -⟩ := DPoS.reachable_schedule s hs
  obtain ⟨i, hi⟩ : ∃ i : Nat, s.indexDelegate = i := ⟨s.indexDelegate.toNat, by omega⟩
  have hi5 : i < 5 := by omega
  refine ⟨h0, by rw [hlen]; exact h5, hlen, hne, ?_, ?_, ?_⟩
  · obtain ⟨b, d, hd, -, -⟩ := DPoS.iteration_next s i hlen hi hi5 hne 0 ""
    refine ⟨d, ?_⟩
    unfold DPoS.index
    have : ¬ ((i : Int) < 0) := by omega
    rw [hi]
    simp [this, hd]
  · cases h : s.Blockchain.getLast? with
    | none => exact absurd (List.getLast?_eq_none_iff.mp h) hne
    | some last => exact ⟨last, rfl⟩
  · intro r t
    obtain ⟨b, d, -, -, hit⟩ := DPoS.iteration_next s i hlen hi hi5 hne r t
    refine ⟨_, hit, ?_, ?_⟩
    · simp only
      rw [hi, hlen]
      push_cast
      rfl
    · simp only
      split_ifs
      · rw [List.length_rotate]
      · rfl

set_option maxRecDepth 100000 in
/-- C17, at a concrete input: the state after the first pass over the loop, and the pass from
it with entropy 7. -/
theorem DPoS.cursor_invariant_witness :
    ∃ s1,
      DPoS.iteration DPoS.countDelegate
          { Blockchain :=
              [DPoS.genesisBlock "2018-07-01 10:00:00 +0800 CST",
               { Index := 1, Timestamp := "2018-07-01 10:00:03 +0800 CST", BPM := 42,
                 Hash := "7694f807e75c3d3657104bbebb8497c3a2bc051acdd0c1e6a3e78cbae0973e5d",
                 PrevHash := "96a296d224f285c67bee93c30f8a309157f0daa35dc5b87e410b78630a09cfc7",
                 Delegate := "002" }],
            delegates := ["001", "002", "003", "004", "005"],
            indexDelegate := 2 } 7 "2018-07-01 10:00:06 +0800 CST" = .next s1 ∧
      s1.indexDelegate = ((2 : Int) + 1) % (5 : Nat) ∧
      s1.delegates.length = 5 :=
  (DPoS.cursor_invariant _
    (DPoS.Reachable.next 42 "2018-07-01 10:00:03 +0800 CST"
      (DPoS.Reachable.start "2018-07-01 10:00:00 +0800 CST") (by decide))).2.2.2.2.2.2
    7 "2018-07-01 10:00:06 +0800 CST"

/-- Passes over the loop of `main` that stay within one cycle: from cursor `i`, as long as the
cursor does not pass 5, the delegates at positions `i`, `i + 1`, ... each add one block, in
that order; the schedule is rotated when the cursor wraps to 0, and not before. -/
theorem DPoS.run_within_cycle : ∀ (inputs : List (Nat × String)) (s : DPoS.State) (i : Nat),
    s.delegates.length = 5 → s.indexDelegate = i → i < 5 → s.Blockchain ≠ [] →
    i + inputs.length ≤ 5 →
    ∃ s1 new, DPoS.run s inputs = some s1 ∧
      s1.Blockchain = s.Blockchain ++ new ∧
      new.map DPoS.Block.Delegate = (s.delegates.drop i).take inputs.length ∧
      s1.indexDelegate = ((i + inputs.length) % 5 : Nat) ∧
      s1.delegates = if i + inputs.length = 5 then s.delegates.rotate 1 else s.delegates := by
  intro inputs
  induction inputs with
  | nil =>
    intro s i _ hi hi5 _ _
    refine ⟨s, [], rfl, by simp, by simp, ?_, ?_⟩
    · rw [hi]; simp [Nat.mod_eq_of_lt hi5]
    · have : ¬ (i + ([] : List (Nat × String)).length = 5) := by simp; omega
      rw [if_neg this]
  | cons rt inputs ih =>
    intro s i hlen hi hi5 hne hsum
    obtain ⟨r, t⟩ := rt
    obtain ⟨b, d, hd, hdel, hit⟩ := DPoS.iteration_next s i hlen hi hi5 hne r t
    have hdrop : ∀ n : Nat, (s.delegates.drop i).take (n + 1) =
        d :: (s.delegates.drop (i + 1)).take n := by
      intro n
      have hlt : i < s.delegates.length := by omega
      have hdi : s.delegates[i] = d := by
        have := List.getElem?_eq_getElem hlt
        rw [hd] at this
        exact (Option.some.inj this).symm
      rw [List.drop_eq_getElem_cons hlt, List.take_succ_cons, hdi]
    simp only [DPoS.run, hit]
    cases inputs with
    | nil =>
      refine ⟨_, [b], rfl, rfl, ?_, rfl, rfl⟩
      simp only [List.map_cons, List.map_nil, hdel, List.length_cons, List.length_nil]
      rw [hdrop]
      simp
    | cons rt2 rest =>
      simp only [List.length_cons] at hsum
      have hi1 : i + 1 < 5 := by omega
      have hnot : ¬ (i + 1 = 5) := by omega
      obtain ⟨s1, new, hrun, hchain, hmap, hidx, hds⟩ :=
        ih { Blockchain := s.Blockchain ++ [b],
             delegates := if i + 1 = 5 then s.delegates.rotate 1 else s.delegates,
             indexDelegate := ((i + 1) % 5 : Nat) } (i + 1)
          (by simp only [if_neg hnot]; exact hlen)
          (by simp only [Nat.mod_eq_of_lt hi1])
          hi1 (by simp) (by simp only [List.length_cons]; omega)
      simp only [if_neg hnot] at hrun hchain hmap hidx hds
      simp only [if_neg hnot]
      refine ⟨s1, b :: new, hrun, ?_, ?_, ?_, ?_⟩
      · rw [hchain]; simp
      · rw [List.map_cons, hmap, hdel, List.length_cons _ (rt2 :: rest), hdrop]
      · rw [hidx]; congr 2; simp only [List.length_cons]; omega
      · rw [hds]
        have e : (i + 1 + (rt2 :: rest).length = 5) ↔ (i + ((r, t) :: rt2 :: rest).length = 5) := by
          simp only [List.length_cons]; omega
        simp only [e]

theorem DPoS.run_reachable : ∀ (inputs : List (Nat × String)) (s s1 : DPoS.State),
    DPoS.Reachable s → DPoS.run s inputs = some s1 → DPoS.Reachable s1 := by
  intro inputs
  induction inputs with
  | nil =>
    intro s s1 hs h
    cases h
    exact hs
  | cons rt inputs ih =>
    intro s s1 hs h
    obtain ⟨r, t⟩ := rt
    simp only [DPoS.run] at h
    split at h
    · rename_i s2 hit
      exact ih s2 s1 (DPoS.Reachable.next r t hs hit) h
    · exact absurd h (by simp)

set_option maxRecDepth 100000 in
/-- C12, counterexample: the first cycle. The cursor is 1 when the loop starts, so the cursor
wraps to 0 after four passes; the blocks appended until then are those of `002`, `003`, `004`
and `005`, and the delegate `001` is the `Delegate` of none of them. -/
theorem DPoS.first_cycle_skips_first_delegate :
    (DPoS.start "2018-07-01 10:00:00 +0800 CST").indexDelegate = 1 ∧
    (DPoS.run (DPoS.start "2018-07-01 10:00:00 +0800 CST")
        [(42, "2018-07-01 10:00:03 +0800 CST")]).map DPoS.State.indexDelegate = some 2 ∧
    (DPoS.run (DPoS.start "2018-07-01 10:00:00 +0800 CST")
        [(42, "2018-07-01 10:00:03 +0800 CST"), (7, "2018-07-01 10:00:06 +0800 CST")]).map
      DPoS.State.indexDelegate = some 3 ∧
    (DPoS.run (DPoS.start "2018-07-01 10:00:00 +0800 CST")
        [(42, "2018-07-01 10:00:03 +0800 CST"), (7, "2018-07-01 10:00:06 +0800 CST"),
          (99, "2018-07-01 10:00:09 +0800 CST")]).map DPoS.State.indexDelegate = some 4 ∧
    (DPoS.run (DPoS.start "2018-07-01 10:00:00 +0800 CST")
        [(42, "2018-07-01 10:00:03 +0800 CST"), (7, "2018-07-01 10:00:06 +0800 CST"),
          (99, "2018-07-01 10:00:09 +0800 CST"), (15, "2018-07-01 10:00:12 +0800 CST")]).map
      (fun s => (s.indexDelegate, s.delegates, s.Blockchain.map DPoS.Block.Delegate)) =
        some (0, ["002", "003", "004", "005", "001"], ["", "002", "003", "004", "005"]) ∧
    "001" ∈ (DPoS.start "2018-07-01 10:00:00 +0800 CST").delegates ∧
    ["002", "003", "004", "005"].count "001" = 0 := by
  refine ⟨by decide, by decide, by decide, by decide, by decide, by decide, by decide⟩

/-- C12, as amended. First cycle: from the start of the loop the cursor is 1, so after four
passes the cursor wraps to 0 for the first time; the four blocks appended are those of `002`,
`003`, `004`, `005` in that order (none is of `001`, whose slot the genesis block takes), and at
the wrap the schedule is the initial one rotated left by one position. Every later cycle: from
a reachable state whose cursor is 0, five passes bring the cursor back to 0 and not before;
the five blocks appended are those of the delegates of the schedule, in its order, so that
each delegate is the `Delegate` of exactly one of them; at the wrap the schedule is the one at
the start of the cycle rotated left by one position. -/
theorem DPoS.cycle_rotation :
    (∀ (t : String) (inputs : List (Nat × String)), inputs.length = 4 →
      ∃ s1 new, DPoS.run (DPoS.start t) inputs = some s1 ∧ DPoS.Reachable s1 ∧
        s1.indexDelegate = 0 ∧
        s1.delegates = (DPoS.start t).delegates.rotate 1 ∧
        s1.Blockchain = (DPoS.start t).Blockchain ++ new ∧
        new.map DPoS.Block.Delegate = ["002", "003", "004", "005"] ∧
        (∀ k : Nat, k < 4 →
          ∃ s2, DPoS.run (DPoS.start t) (inputs.take k) = some s2 ∧ s2.indexDelegate ≠ 0)) ∧
    (∀ s : DPoS.State, DPoS.Reachable s → s.indexDelegate = 0 →
      ∀ inputs : List (Nat × String), inputs.length = 5 →
      ∃ s1 new, DPoS.run s inputs = some s1 ∧ DPoS.Reachable s1 ∧
        s1.indexDelegate = 0 ∧
        s1.delegates = s.delegates.rotate 1 ∧
        s1.Blockchain = s.Blockchain ++ new ∧
        new.map DPoS.Block.Delegate = s.delegates ∧
        (∀ d ∈ s.delegates, (new.map DPoS.Block.Delegate).count d = 1) ∧
        (∀ k : Nat, 0 < k → k < 5 →
          ∃ s2, DPoS.run s (inputs.take k) = some s2 ∧ s2.indexDelegate ≠ 0)) := by
  constructor
  · intro t inputs hlen
    have hstart : (DPoS.start t).indexDelegate = ((1 : Nat) : Int) := by
      show Go.intAdd 0 1 = 1
      decide
    obtain ⟨s1, new, hrun, hchain, hmap, hidx, hds⟩ :=
      DPoS.run_within_cycle inputs (DPoS.start t) 1 rfl hstart (by omega)
        (by simp [DPoS.start]) (by omega)
    rw [hlen] at hmap hidx hds
    refine ⟨s1, new, hrun, DPoS.run_reachable _ _ _ (DPoS.Reachable.start t) hrun, ?_, ?_,
      hchain, ?_, ?_⟩
    · rw [hidx]; rfl
    · rw [hds]; rfl
    · rw [hmap]; rfl
    · intro k hk
      obtain ⟨s2, -, hrun2, -, -, hidx2, -⟩ :=
        DPoS.run_within_cycle (inputs.take k) (DPoS.start t) 1 rfl hstart (by omega)
          (by simp [DPoS.start]) (by simp; omega)
      refine ⟨s2, hrun2, ?_⟩
      rw [hidx2]
      have hl : (inputs.take k).length = k := by simp; omega
      rw [hl]
      have : (1 + k) % 5 = 1 + k := Nat.mod_eq_of_lt (by omega)
      rw [this]
      omega
  · intro s hs h0 inputs hlen
    obtain ⟨hl5, -, -, hne, hnd⟩ := DPoS.reachable_schedule s hs
    have h0n : s.indexDelegate = ((0 : Nat) : Int) := by rw [h0]; rfl
    obtain ⟨s1, new, hrun, hchain, hmap, hidx, hds⟩ :=
      DPoS.run_within_cycle inputs s 0 hl5 h0n (by omega) hne (by omega)
    rw [hlen] at hmap hidx hds
    have hmap2 : new.map DPoS.Block.Delegate = s.delegates := by
      rw [hmap, List.drop_zero, List.take_of_length_le (by omega)]
    refine ⟨s1, new, hrun, DPoS.run_reachable _ _ _ hs hrun, ?_, ?_, hchain, hmap2, ?_, ?_⟩
    · rw [hidx]; rfl
    · rw [hds]; rfl
    · intro d hd
      rw [hmap2]
      exact List.count_eq_one_of_mem hnd hd
    · intro k hk0 hk
      obtain ⟨s2, -, hrun2, -, -, hidx2, -⟩ :=
        DPoS.run_within_cycle (inputs.take k) s 0 hl5 h0n (by omega) hne (by simp; omega)
      refine ⟨s2, hrun2, ?_⟩
      rw [hidx2]
      have hl : (inputs.take k).length = k := by simp; omega
      rw [hl]
      have : (0 + k) % 5 = k := by rw [Nat.zero_add]; exact Nat.mod_eq_of_lt hk
      rw [this]
      omega

/-- C12 as amended, at concrete inputs: the first cycle, and the cycle after it. -/
theorem DPoS.cycle_rotation_witness :
    ∃ (s1 : DPoS.State) (new : List DPoS.Block),
      DPoS.run (DPoS.start "2018-07-01 10:00:00 +0800 CST")
        [(42, "2018-07-01 10:00:03 +0800 CST"), (7, "2018-07-01 10:00:06 +0800 CST"),
          (99, "2018-07-01 10:00:09 +0800 CST"), (15, "2018-07-01 10:00:12 +0800 CST")] =
        some s1 ∧
      s1.indexDelegate = 0 ∧
      s1.delegates = ["002", "003", "004", "005", "001"] ∧
      s1.Blockchain = (DPoS.start "2018-07-01 10:00:00 +0800 CST").Blockchain ++ new ∧
      new.map DPoS.Block.Delegate = ["002", "003", "004", "005"] ∧
      ∃ (s2 : DPoS.State) (new2 : List DPoS.Block),
        DPoS.run s1
          [(3, "2018-07-01 10:00:15 +0800 CST"), (60, "2018-07-01 10:00:18 +0800 CST"),
            (21, "2018-07-01 10:00:21 +0800 CST"), (88, "2018-07-01 10:00:24 +0800 CST"),
            (5, "2018-07-01 10:00:27 +0800 CST")] = some s2 ∧
        s2.indexDelegate = 0 ∧
        s2.delegates = ["003", "004", "005", "001", "002"] ∧
        s2.Blockchain = s1.Blockchain ++ new2 ∧
        new2.map DPoS.Block.Delegate = ["002", "003", "004", "005", "001"] := by
  obtain ⟨s1, new, hrun, hreach, hidx, hds, hch, hmap, -⟩ :=
    DPoS.cycle_rotation.1 "2018-07-01 10:00:00 +0800 CST"
      [(42, "2018-07-01 10:00:03 +0800 CST"), (7, "2018-07-01 10:00:06 +0800 CST"),
        (99, "2018-07-01 10:00:09 +0800 CST"), (15, "2018-07-01 10:00:12 +0800 CST")] rfl
  obtain ⟨s2, new2, hrun2, -, hidx2, hds2, hch2, hmap2, -, -⟩ :=
    DPoS.cycle_rotation.2 s1 hreach hidx
      [(3, "2018-07-01 10:00:15 +0800 CST"), (60, "2018-07-01 10:00:18 +0800 CST"),
        (21, "2018-07-01 10:00:21 +0800 CST"), (88, "2018-07-01 10:00:24 +0800 CST"),
        (5, "2018-07-01 10:00:27 +0800 CST")] rfl
  have hds1 : s1.delegates = ["002", "003", "004", "005", "001"] := by rw [hds]; rfl
  refine ⟨s1, new, hrun, hidx, hds1, hch, hmap, s2, new2, hrun2, hidx2, ?_, hch2, ?_⟩
  · rw [hds2, hds1]; rfl
  · rw [hmap2, hds1]

/-! ## The hashed record -/

namespace Go

theorem digitChar_value (k : Nat) (hk : k < 10) : (Nat.digitChar k).toNat - 48 = k := by
  interval_cases k <;> rfl

theorem digitChar_ne_minus (k : Nat) (hk : k < 10) : Nat.digitChar k ≠ '-' := by
  interval_cases k <;> decide

/-- Reading the decimal digits that `Nat.toDigitsCore` writes gives the number back. -/
theorem toDigitsCore_value (fuel : Nat) : ∀ (n : Nat) (ds : List Char), n < fuel →
    (Nat.toDigitsCore 10 fuel n ds).foldl (fun a d => 10 * a + (d.toNat - 48)) 0 =
      ds.foldl (fun a d => 10 * a + (d.toNat - 48)) n := by
  induction fuel with
  | zero => intro n ds h; omega
  | succ fuel ih =>
    intro n ds h
    rw [Nat.toDigitsCore]
    split_ifs with h0
    · rw [List.foldl_cons, digitChar_value _ (Nat.mod_lt _ (by decide))]
      congr 1
      omega
    · rw [ih (n / 10) _ (by omega), List.foldl_cons,
        digitChar_value _ (Nat.mod_lt _ (by decide))]
      congr 1
      omega

theorem toDigitsCore_head (fuel : Nat) : ∀ (n k : Nat) (ds : List Char), k < 10 →
    ∃ j tl, j < 10 ∧ Nat.toDigitsCore 10 fuel n (Nat.digitChar k :: ds) = Nat.digitChar j :: tl := by
  induction fuel with
  | zero => intro n k ds hk; exact ⟨k, ds, hk, rfl⟩
  | succ fuel ih =>
    intro n k ds hk
    rw [Nat.toDigitsCore]
    split_ifs with h0
    · exact ⟨n % 10, _, Nat.mod_lt _ (by decide), rfl⟩
    · exact ih (n / 10) (n % 10) _ (Nat.mod_lt _ (by decide))

theorem toDigits_head (n : Nat) :
    ∃ j tl, j < 10 ∧ Nat.toDigits 10 n = Nat.digitChar j :: tl := by
  rw [Nat.toDigits, Nat.toDigitsCore]
  split_ifs with h0
  · exact ⟨n % 10, _, Nat.mod_lt _ (by decide), rfl⟩
  · exact toDigitsCore_head n (n / 10) (n % 10) [] (Nat.mod_lt _ (by decide))

theorem decimal_injective (n m : Nat) (h : decimal n = decimal m) : n = m := by
  have h1 : Nat.toDigits 10 n = Nat.toDigits 10 m := by
    unfold decimal at h
    exact congrArg String.data h
  have hn := toDigitsCore_value (n + 1) n [] (by omega)
  have hm := toDigitsCore_value (m + 1) m [] (by omega)
  simp only [List.foldl_nil] at hn hm
  rw [← hn, ← hm]
  exact congrArg _ h1

theorem decimal_head (n : Nat) : ∃ j tl, j < 10 ∧ (decimal n).data = Nat.digitChar j :: tl :=
  toDigits_head n

/-- Function `strconv.Itoa` gives different texts for different integers. -/
theorem Itoa_injective (i j : Int) (h : Itoa i = Itoa j) : i = j := by
  unfold Itoa at h
  have hminus : ∀ (n m : Nat), "-" ++ decimal n ≠ decimal m := by
    intro n m e
    obtain ⟨k, tl, hk, hd⟩ := decimal_head m
    have e2 := congrArg String.data e
    rw [String.data_append, hd] at e2
    have : '-' = Nat.digitChar k := by
      have e3 : ("-" : String).data = ['-'] := rfl
      rw [e3] at e2
      exact (List.cons.inj e2).1
    exact digitChar_ne_minus k hk this.symm
  by_cases hi : i < 0 <;> by_cases hj : j < 0
  · rw [if_pos hi, if_pos hj] at h
    have e2 := congrArg String.data h
    simp only [String.data_append] at e2
    have e3 : (decimal i.natAbs).data = (decimal j.natAbs).data := List.append_cancel_left e2
    have e4 : decimal i.natAbs = decimal j.natAbs := String.ext e3
    have := decimal_injective _ _ e4
    omega
  · rw [if_pos hi, if_neg hj] at h
    exact absurd h (hminus _ _)
  · rw [if_neg hi, if_pos hj] at h
    exact absurd h.symm (hminus _ _)
  · rw [if_neg hi, if_neg hj] at h
    have := decimal_injective _ _ h
    omega

end Go

theorem PoW.record_data (a : PoW.Block) :
    (PoW.record a).data =
      (Go.Itoa a.Index).data ++ (a.Timestamp.data ++ ((Go.Itoa a.BPM).data ++
        (a.PreHash.data ++ a.Nonce.data))) := by
  simp [PoW.record, String.data_append, List.append_assoc]

/-- C15: the string that the proof-of-work `calculateHash` hashes is
`strconv.Itoa(Index) + Timestamp + strconv.Itoa(BPM) + PreHash + Nonce`, and for two blocks
that differ in exactly one of `Index`, `Timestamp`, `BPM`, `PreHash`, `Nonce` and agree on the
other four, the two strings differ. -/
theorem PoW.record_sensitive (a b : PoW.Block) :
    PoW.record a =
      Go.Itoa a.Index ++ a.Timestamp ++ Go.Itoa a.BPM ++ a.PreHash ++ a.Nonce ∧
    (a.Index ≠ b.Index → a.Timestamp = b.Timestamp → a.BPM = b.BPM →
      a.PreHash = b.PreHash → a.Nonce = b.Nonce → PoW.record a ≠ PoW.record b) ∧
    (a.Timestamp ≠ b.Timestamp → a.Index = b.Index → a.BPM = b.BPM →
      a.PreHash = b.PreHash → a.Nonce = b.Nonce → PoW.record a ≠ PoW.record b) ∧
    (a.BPM ≠ b.BPM → a.Index = b.Index → a.Timestamp = b.Timestamp →
      a.PreHash = b.PreHash → a.Nonce = b.Nonce → PoW.record a ≠ PoW.record b) ∧
    (a.PreHash ≠ b.PreHash → a.Index = b.Index → a.Timestamp = b.Timestamp →
      a.BPM = b.BPM → a.Nonce = b.Nonce → PoW.record a ≠ PoW.record b) ∧
    (a.Nonce ≠ b.Nonce → a.Index = b.Index → a.Timestamp = b.Timestamp →
      a.BPM = b.BPM → a.PreHash = b.PreHash → PoW.record a ≠ PoW.record b) := by
  refine ⟨rfl, ?_, ?_, ?_, ?_, ?_⟩
  · intro hne ht hb hp hn e
    have e2 := congrArg String.data e
    rw [PoW.record_data, PoW.record_data, ht, hb, hp, hn] at e2
    exact hne (Go.Itoa_injective _ _ (String.ext (List.append_cancel_right e2)))
  · intro hne hi hb hp hn e
    have e2 := congrArg String.data e
    rw [PoW.record_data, PoW.record_data, hi, hb, hp, hn] at e2
    exact hne (String.ext (List.append_cancel_right (List.append_cancel_left e2)))
  · intro hne hi ht hp hn e
    have e2 := congrArg String.data e
    rw [PoW.record_data, PoW.record_data, hi, ht, hp, hn] at e2
    exact hne (Go.Itoa_injective _ _ (String.ext
      (List.append_cancel_right (List.append_cancel_left (List.append_cancel_left e2)))))
  · intro hne hi ht hb hn e
    have e2 := congrArg String.data e
    rw [PoW.record_data, PoW.record_data, hi, ht, hb, hn] at e2
    exact hne (String.ext (List.append_cancel_right
      (List.append_cancel_left (List.append_cancel_left (List.append_cancel_left e2)))))
  · intro hne hi ht hb hp e
    have e2 := congrArg String.data e
    rw [PoW.record_data, PoW.record_data, hi, ht, hb, hp] at e2
    exact hne (String.ext (List.append_cancel_left
      (List.append_cancel_left (List.append_cancel_left (List.append_cancel_left e2)))))

/-- C15, at concrete inputs: two blocks whose timestamps differ in one character, and two
blocks with payloads 1 and 12. -/
theorem PoW.record_sensitive_witness :
    PoW.record
        { Index := 1, Timestamp := "2018-07-01 10:00:30 +0800 CST", BPM := 8, Hash := "",
          PreHash := "f1534392279bddbf9d43dde8701cb5be14b82f76ec6607bf8d6ad557f60f304e",
          Difficulty := 1, Nonce := "2" } ≠
      PoW.record
        { Index := 1, Timestamp := "2018-07-01 10:00:31 +0800 CST", BPM := 8, Hash := "",
          PreHash := "f1534392279bddbf9d43dde8701cb5be14b82f76ec6607bf8d6ad557f60f304e",
          Difficulty := 1, Nonce := "2" } ∧
    PoW.record
        { Index := 1, Timestamp := "2018-07-01 10:00:30 +0800 CST", BPM := 1, Hash := "",
          PreHash := "f1534392279bddbf9d43dde8701cb5be14b82f76ec6607bf8d6ad557f60f304e",
          Difficulty := 1, Nonce := "2" } ≠
      PoW.record
        { Index := 1, Timestamp := "2018-07-01 10:00:30 +0800 CST", BPM := 12, Hash := "",
          PreHash := "f1534392279bddbf9d43dde8701cb5be14b82f76ec6607bf8d6ad557f60f304e",
          Difficulty := 1, Nonce := "2" } :=
  ⟨(PoW.record_sensitive _ _).2.2.1 (by decide) rfl rfl rfl rfl,
   (PoW.record_sensitive _ _).2.2.2.1 (by decide) rfl rfl rfl rfl⟩

set_option maxRecDepth 100000 in
/-- C14, the code at the failing inputs. `caculateBlockHash` converts `Index` and `BPM` with
`string(...)`, which gives the one character U+FFFD for every integer that is not a code point.
Proof of stake: the blocks that `generateBlock` builds for the payloads `-1` and `-2` (both
accepted by `strconv.Atoi`) differ in `BPM` only and have the same hashed string, hence the
same hash; so do any two negative payloads. Delegated proof of stake: two blocks that differ
in `Index` only, 55296 and 55297, have the same hashed string. -/
theorem record_collisions :
    Go.Atoi "-1" = (-1, false) ∧ Go.Atoi "-2" = (-2, false) ∧
    PoS.sampleCandidate "a" (-1) ≠ PoS.sampleCandidate "a" (-2) ∧
    { PoS.sampleCandidate "a" (-1) with BPM := -2 } = PoS.sampleCandidate "a" (-2) ∧
    PoS.record (PoS.sampleCandidate "a" (-1)) = PoS.record (PoS.sampleCandidate "a" (-2)) ∧
    PoS.caculateBlockHash (PoS.sampleCandidate "a" (-1)) =
      PoS.caculateBlockHash (PoS.sampleCandidate "a" (-2)) ∧
    (∀ (block : PoS.Block) (n m : Nat),
      PoS.record { block with BPM := -((n : Int) + 1) } =
        PoS.record { block with BPM := -((m : Int) + 1) }) ∧
    DPoS.record
        { Index := 55296, Timestamp := "2018-07-01 10:00:03 +0800 CST", BPM := 42, Hash := "",
          PrevHash := "96a296d224f285c67bee93c30f8a309157f0daa35dc5b87e410b78630a09cfc7",
          Delegate := "002" } =
      DPoS.record
        { Index := 55297, Timestamp := "2018-07-01 10:00:03 +0800 CST", BPM := 42, Hash := "",
          PrevHash := "96a296d224f285c67bee93c30f8a309157f0daa35dc5b87e410b78630a09cfc7",
          Delegate := "002" } ∧
    DPoS.caculateBlockHash
        { Index := 55296, Timestamp := "2018-07-01 10:00:03 +0800 CST", BPM := 42, Hash := "",
          PrevHash := "96a296d224f285c67bee93c30f8a309157f0daa35dc5b87e410b78630a09cfc7",
          Delegate := "002" } =
      DPoS.caculateBlockHash
        { Index := 55297, Timestamp := "2018-07-01 10:00:03 +0800 CST", BPM := 42, Hash := "",
          PrevHash := "96a296d224f285c67bee93c30f8a309157f0daa35dc5b87e410b78630a09cfc7",
          Delegate := "002" } := by
  have hneg : ∀ n : Nat, Go.runeString (-((n : Int) + 1)) = String.singleton (Char.ofNat 65533) := by
    intro n
    unfold Go.runeString
    rw [if_neg]
    intro h
    omega
  have hpos : PoS.record (PoS.sampleCandidate "a" (-1)) =
      PoS.record (PoS.sampleCandidate "a" (-2)) := by decide
  have hdpos : DPoS.record
        { Index := 55296, Timestamp := "2018-07-01 10:00:03 +0800 CST", BPM := 42, Hash := "",
          PrevHash := "96a296d224f285c67bee93c30f8a309157f0daa35dc5b87e410b78630a09cfc7",
          Delegate := "002" } =
      DPoS.record
        { Index := 55297, Timestamp := "2018-07-01 10:00:03 +0800 CST", BPM := 42, Hash := "",
          PrevHash := "96a296d224f285c67bee93c30f8a309157f0daa35dc5b87e410b78630a09cfc7",
          Delegate := "002" } := by decide
  refine ⟨by decide, by decide, by decide, by decide, hpos,
    congrArg PoS.caculateHash hpos, ?_, hdpos, congrArg DPoS.generateHash hdpos⟩
  intro block n m
  simp only [PoS.record, hneg]

/-! ## Proof of stake: the end of a round -/

namespace PoS

/-- The last loop of `pickWinner` with the mutex free and a block of the winner in the pool:
it stops at `mutex.Unlock()` with the shared variables as they were. -/
theorem commitLoop_free (winner : String) : ∀ (temp : List Block) (w : World),
    w.locked = false → (∃ block ∈ temp, block.Validator = winner) →
    commitLoop winner temp w = .fault .unlockOfUnlocked w := by
  intro temp
  induction temp with
  | nil => intro w _ h; obtain ⟨_, hb, _⟩ := h; simp at hb
  | cons block temp ih =>
    intro w hfree h
    rw [commitLoop]
    split_ifs with hv
    · rw [bind_apply, Unlock_free w hfree]
    · obtain ⟨b, hb, hbv⟩ := h
      rcases List.mem_cons.mp hb with e | e
      · exact absurd (e ▸ hbv) hv
      · exact ih w hfree ⟨b, e, hbv⟩

/-- A round that starts with the mutex free and a pool that is not empty does not return: it
stops at `Intn(0)` or at the `mutex.Unlock()` of the last loop, with the shared variables as
they were at the start. -/
theorem pickWinner_with_candidates (r : Nat) (w : World) (hfree : w.locked = false)
    (hne : w.tempBlocks ≠ []) :
    pickWinner r w = .fault .intnPanic w ∨ pickWinner r w = .fault .unlockOfUnlocked w := by
  have hlen : w.tempBlocks.length > 0 := List.length_pos.mpr hne
  obtain ⟨pool, hpool, hcount⟩ := lotteryLoop_count w hfree w.tempBlocks [] [] (by simp)
  have hhead : pickWinner r w =
      ((lottery w.tempBlocks r >>= fun lotteryWinner =>
        commitLoop lotteryWinner w.tempBlocks >>= fun _ => (do
          Lock
          modify fun w => { w with tempBlocks := [] }
          Unlock : Exec Unit)) w) := by
    unfold pickWinner
    simp only [bind_apply, Lock_free w hfree, read_apply,
      Unlock_held { w with locked := true } rfl, World.unlock_lock w hfree]
    rw [if_pos hlen]
    rfl
  rw [hhead, bind_apply]
  unfold lottery
  rw [bind_apply, hpool]
  simp only
  cases hd : draw pool r w with
  | fault f w1 =>
    left
    unfold draw at hd
    split at hd
    · cases hd; rfl
    · split at hd
      · exact absurd hd (by simp)
      · rename_i i hi _ hnone
        exfalso
        unfold Go.Intn at hi
        split_ifs at hi with h0
        cases hi
        have hlt : r % pool.length < pool.length := Nat.mod_lt _ (Nat.pos_of_ne_zero h0)
        rw [List.getElem?_eq_getElem hlt] at hnone
        exact absurd hnone (by simp)
  | ok winner w1 =>
    right
    obtain ⟨hin, hw⟩ := draw_ok pool r w w1 winner hd
    subst hw
    have hpos : 0 < pool.count winner := List.count_pos_iff.mpr hin
    have hmem : winner ∈ w1.tempBlocks.map Block.Validator := by
      by_contra hn
      have hc := hcount winner
      rw [if_neg (by simpa using hn)] at hc
      omega
    obtain ⟨block, hb, hv⟩ := List.mem_map.mp hmem
    simp only
    rw [bind_apply, commitLoop_free winner _ w1 hfree ⟨block, hb, hv⟩]

end PoS

namespace PoS

theorem ends_bind {α β : Type} (m : Exec α) (f : α → Exec β)
    (hf : ∀ a w, (f a w).returned = false ∨ (f a w).world.tempBlocks = []) :
    ∀ w, ((m >>= f) w).returned = false ∨ ((m >>= f) w).world.tempBlocks = [] := by
  intro w
  rw [bind_apply]
  cases m w with
  | ok a w1 => exact hf a w1
  | fault e w1 => exact Or.inl rfl

theorem ends_reset : ∀ w : World,
    ((do
      Lock
      modify fun w => { w with tempBlocks := [] }
      Unlock : Exec Unit) w).returned = false ∨
    ((do
      Lock
      modify fun w => { w with tempBlocks := [] }
      Unlock : Exec Unit) w).world.tempBlocks = [] := by
  intro w
  cases hl : w.locked with
  | true => left; simp [bind_apply, Lock_held w hl, Res.returned]
  | false =>
    right
    simp [bind_apply, Lock_free w hl, modify_apply, Unlock, Res.world]

/-- A round of `pickWinner` that returns has cleared the pool. -/
theorem ends_pickWinner (r : Nat) : ∀ w : World,
    (pickWinner r w).returned = false ∨ (pickWinner r w).world.tempBlocks = [] := by
  unfold pickWinner
  refine ends_bind _ _ fun _ => ?_
  refine ends_bind _ _ fun w0 => ?_
  refine ends_bind _ _ fun _ => ?_
  split_ifs
  · refine ends_bind _ _ fun _ => ?_
    exact ends_bind _ _ fun _ => ends_reset
  · exact ends_bind _ _ fun _ => ends_reset

end PoS

set_option maxRecDepth 100000 in
/-- C11, the code at the failing inputs. A round in which a winner is found stops at the
`mutex.Unlock()` of the last loop, and a round whose lottery pool is empty stops at `Intn(0)`;
in both the statements that clear the pool (lines 224 to 226) are not reached and `tempBlocks`
keeps its blocks. In general a round that starts with the mutex free and with candidates in
the pool never returns and leaves the pool as it was; only a round that returns has cleared
the pool. -/
theorem PoS.pickWinner_pool_not_cleared :
    (PoS.pickWinner 0 (PoS.sampleWorld [PoS.sampleCandidate "a" 72] [("a", 1)])).returned = false ∧
    (PoS.pickWinner 0 (PoS.sampleWorld [PoS.sampleCandidate "a" 72] [("a", 1)])).world.tempBlocks =
      [PoS.sampleCandidate "a" 72] ∧
    (PoS.pickWinner 0 (PoS.sampleWorld [PoS.sampleCandidate "c" 72] [("c", 0)])).returned = false ∧
    (PoS.pickWinner 0 (PoS.sampleWorld [PoS.sampleCandidate "c" 72] [("c", 0)])).world.tempBlocks =
      [PoS.sampleCandidate "c" 72] ∧
    (∀ (r : Nat) (w : PoS.World), w.locked = true ∨ w.tempBlocks = [] ∨
      ((PoS.pickWinner r w).returned = false ∧
        (PoS.pickWinner r w).world.tempBlocks = w.tempBlocks)) ∧
    (∀ (r : Nat) (w : PoS.World),
      (PoS.pickWinner r w).returned = false ∨ (PoS.pickWinner r w).world.tempBlocks = []) := by
  have hgen : ∀ (r : Nat) (w : PoS.World), w.locked = true ∨ w.tempBlocks = [] ∨
      ((PoS.pickWinner r w).returned = false ∧
        (PoS.pickWinner r w).world.tempBlocks = w.tempBlocks) := by
    intro r w
    by_cases hl : w.locked = true
    · exact Or.inl hl
    · by_cases ht : w.tempBlocks = []
      · exact Or.inr (Or.inl ht)
      · right; right
        rcases PoS.pickWinner_with_candidates r w (by simpa using hl) ht with h | h <;>
          rw [h] <;> exact ⟨rfl, rfl⟩
  have h1 := hgen 0 (PoS.sampleWorld [PoS.sampleCandidate "a" 72] [("a", 1)])
  have h2 := hgen 0 (PoS.sampleWorld [PoS.sampleCandidate "c" 72] [("c", 0)])
  simp only [PoS.sampleWorld, Bool.false_eq_true, false_or] at h1 h2
  refine ⟨?_, ?_, ?_, ?_, hgen, PoS.ends_pickWinner⟩
  · rcases h1 with h | h
    · exact absurd h (by simp)
    · exact h.1
  · rcases h1 with h | h
    · exact absurd h (by simp)
    · exact h.2
  · rcases h2 with h | h
    · exact absurd h (by simp)
    · exact h.1
  · rcases h2 with h | h
    · exact absurd h (by simp)
    · exact h.2

set_option maxRecDepth 100000 in
/-- C18, the code at the failing input: the pool holds a block of `b` and a block of `a`, and
`a` is registered with balance 1. After the snapshot and the lottery every `mutex.Lock()` of the
round has been matched by its `mutex.Unlock()` and the mutex is free; the last loop skips the
block of `b` and at the block of `a` calls `mutex.Unlock()` with no `mutex.Lock()` before it.
The same holds whenever the last loop meets a block of the winner with the mutex free. With
an empty pool the round returns with the mutex free. -/
theorem PoS.pickWinner_unlock_without_lock :
    PoS.lottery [PoS.sampleCandidate "b" 80, PoS.sampleCandidate "a" 72] 0
        (PoS.sampleWorld [PoS.sampleCandidate "b" 80, PoS.sampleCandidate "a" 72] [("a", 1)]) =
      .ok "a"
        (PoS.sampleWorld [PoS.sampleCandidate "b" 80, PoS.sampleCandidate "a" 72] [("a", 1)]) ∧
    (PoS.sampleWorld [PoS.sampleCandidate "b" 80, PoS.sampleCandidate "a" 72]
      [("a", 1)]).locked = false ∧
    PoS.commitLoop "a" [PoS.sampleCandidate "b" 80, PoS.sampleCandidate "a" 72]
        (PoS.sampleWorld [PoS.sampleCandidate "b" 80, PoS.sampleCandidate "a" 72] [("a", 1)]) =
      .fault .unlockOfUnlocked
        (PoS.sampleWorld [PoS.sampleCandidate "b" 80, PoS.sampleCandidate "a" 72] [("a", 1)]) ∧
    PoS.pickWinner 0
        (PoS.sampleWorld [PoS.sampleCandidate "b" 80, PoS.sampleCandidate "a" 72] [("a", 1)]) =
      .fault .unlockOfUnlocked
        (PoS.sampleWorld [PoS.sampleCandidate "b" 80, PoS.sampleCandidate "a" 72] [("a", 1)]) ∧
    (∀ (block : PoS.Block) (temp : List PoS.Block) (w : PoS.World),
      PoS.commitLoop block.Validator (block :: temp) { w with locked := false } =
        .fault .unlockOfUnlocked { w with locked := false }) ∧
    PoS.pickWinner 0 (PoS.sampleWorld [] [("a", 1)]) = .ok () (PoS.sampleWorld [] [("a", 1)]) := by
  refine ⟨by decide, rfl, by decide, by decide, ?_, by decide⟩
  intro block temp w
  exact PoS.commitLoop_free block.Validator _ _ rfl ⟨block, List.mem_cons_self _ _, rfl⟩
